import Mathlib

set_option maxRecDepth 8192

/-!
Verification development for the persistent memory subsystem of the
microconscious agent (src/memory_system.py, src/mido.py, src/schema.py).

The Python classes are shallowly embedded as Lean structures; the methods
become pure state-passing functions.  Wall-clock time (datetime.now) is
modelled as an explicit integer instant `now` that is constant within a
single top-level operation.  Entry timestamps (ISO strings in the source)
are modelled as integer instants; the JSONL files are modelled as lists of
records, treating the JSON encode/decode layer (pydantic model_dump_json /
json.loads) as a faithful external serialization capability.

The recursive call cycle add_memory -> _check_consolidation ->
_consolidate_memories -> add_memory is modelled with an explicit fuel
parameter: a result `(s, false)` means the computation aborted with the
state accumulated so far (modelling a Python RecursionError propagating
out of the nested calls, with all mutations performed up to that point
kept, and all remaining statements of every caller skipped).
-/

/-- MemoryType enum from src/schema.py. -/
inductive MemoryType where
  | episodic
  | semantic
  | procedural
  | reflection
  | conversation
deriving DecidableEq, Repr

/-- MemoryCategory enum from src/schema.py. -/
inductive MemoryCategory where
  | human_interaction
  | learning
  | self_awareness
  | skill
  | knowledge
deriving DecidableEq, Repr

/-- Message model from src/schema.py. -/
structure Message where
  role : String
  content : String
  timestamp : Int
deriving DecidableEq, Repr

/-- Conversation model from src/schema.py. -/
structure Conversation where
  messages : List Message
  summary : Option String
deriving DecidableEq, Repr

/-- Values stored in the open metadata mapping of a memory entry.  The
source uses a Python dict; the entries actually written by the core paths
are integers, strings, and lists of timestamps or of role strings. -/
inductive MetaVal where
  | int : Int → MetaVal
  | str : String → MetaVal
  | intList : List Int → MetaVal
  | strList : List String → MetaVal
deriving DecidableEq, Repr

/-- MemoryEntry model from src/schema.py.  The unused `embedding` field
(Optional, never assigned by the core paths) is omitted. -/
structure MemoryEntry where
  timestamp : Int
  memory_type : MemoryType
  category : MemoryCategory
  content : String
  context : String
  importance : Int
  conversation : Option Conversation := none
  metadata : List (String × MetaVal) := []
  references : List Int := []
  last_accessed : Option Int := none
  access_count : Nat := 0
  consolidated : Bool := false
deriving DecidableEq, Repr

/-- Agent State model from src/schema.py. -/
structure State where
  current_focus : String
  emotional_state : String
  energy_level : Int
  last_action : Option String := none
  last_interaction : Option String := none
  conversation_context : Option String := none
deriving DecidableEq, Repr

/-- The memory settings read from configuration (src/config.py keys and
the `.get` defaults used in src/memory_system.py). -/
structure Settings where
  importance_threshold : Int
  consolidation_interval_hours : Int := 24
  memory_retention_days : Int := 30
  pruning_importance_threshold : Int := 5
  min_access_keep : Nat := 3
deriving DecidableEq, Repr

/-- One chunk document stored in the vector index, carrying the metadata
fields attached in add_memory and in the index construction. -/
structure Doc where
  content : String
  timestamp : Int
  memory_type : MemoryType
  category : MemoryCategory
  importance : Int
  chunk_index : Nat
  total_chunks : Nat
deriving DecidableEq, Repr

/-- The MemorySystem object state: settings, the durable JSONL log
(memory.jsonl contents), the in-memory working set `self.memories`, the
derived vector index, and the consolidation clock. -/
structure MemorySystem where
  settings : Settings
  memory_log : List MemoryEntry
  memories : List MemoryEntry
  vector_store : List Doc
  last_consolidation : Int
deriving DecidableEq, Repr

/-- Modelled from the spec: the Chunker contract of section 4.2 (the
external RecursiveCharacterTextSplitter with chunk_size 1000 and
chunk_overlap 200): deterministic fixed windows of 1000 characters with
stride 800. -/
def split_chunks_aux : Nat → List Char → List (List Char)
  | 0, l => [l]
  | fuel + 1, l =>
      if l.length ≤ 1000 then [l]
      else l.take 1000 :: split_chunks_aux fuel (l.drop 800)

/-- Window splitting of a character list; the fuel `l.length + 1` always
suffices because each step strictly shortens the list. -/
def split_chunks (l : List Char) : List (List Char) :=
  split_chunks_aux (l.length + 1) l

/-- Text splitter applied to a string, per the Chunker contract. -/
def split_text (t : String) : List String :=
  (split_chunks t.data).map String.mk

/-- Rendering of a metadata mapping, modelling json.dumps. -/
def meta_val_text : MetaVal → String
  | MetaVal.int i => toString i
  | MetaVal.str s => "\"" ++ s ++ "\""
  | MetaVal.intList l => "[" ++ String.intercalate ", " (l.map toString) ++ "]"
  | MetaVal.strList l => "[" ++ String.intercalate ", " (l.map (fun s => "\"" ++ s ++ "\"")) ++ "]"

/-- Rendering of the whole metadata dict, modelling json.dumps. -/
def metadata_text (md : List (String × MetaVal)) : String :=
  "\x7b" ++ String.intercalate ", " (md.map (fun p => "\"" ++ p.1 ++ "\": " ++ meta_val_text p.2)) ++ "\x7d"

/-- Rendering of a category value, as interpolated into f-strings. -/
def category_text : MemoryCategory → String
  | MemoryCategory.human_interaction => "human_interaction"
  | MemoryCategory.learning => "learning"
  | MemoryCategory.self_awareness => "self_awareness"
  | MemoryCategory.skill => "skill"
  | MemoryCategory.knowledge => "knowledge"

namespace MemorySystem

/-- MemorySystem._create_memory_text: searchable text combining content,
context, metadata (when non-empty) and a flattened conversation. -/
def create_memory_text (m : MemoryEntry) : String :=
  let base := m.content ++ "\nContext: " ++ m.context
  let base := if m.metadata.isEmpty then base
    else base ++ "\nMetadata: " ++ metadata_text m.metadata
  match m.conversation with
  | none => base
  | some conv =>
      base ++ "\nConversation:\n" ++
        String.intercalate "\n" (conv.messages.map (fun msg => msg.role ++ ": " ++ msg.content))

/-- The chunk documents produced for one entry (the loop bodies of
add_memory lines 108-123 and _initialize_vector_store lines 49-74, which
attach identical metadata). -/
def entry_docs (m : MemoryEntry) : List Doc :=
  let chunks := split_text (create_memory_text m)
  chunks.enum.map (fun p =>
    { content := p.2
      timestamp := m.timestamp
      memory_type := m.memory_type
      category := m.category
      importance := m.importance
      chunk_index := p.1
      total_chunks := chunks.length })

/-- Document list built by MemorySystem._initialize_vector_store from a
working set (the external Chroma store is modelled per the section 6
capability contract as holding exactly the documents added to it). -/
def init_vector_store (l : List MemoryEntry) : List Doc :=
  (l.map entry_docs).flatten

/-- MemorySystem._load_memories: the JSONL log parsed in write order. -/
def load_memories (log : List MemoryEntry) : List MemoryEntry := log

/-- Indexed filter: the list of (position, element) pairs of elements
satisfying `p`, with positions counted from `start`.  Positions stand for
Python object identity of the working-set members. -/
def idx_filter (p : MemoryEntry → Bool) : List MemoryEntry → Nat → List (Nat × MemoryEntry)
  | [], _ => []
  | m :: rest, i =>
      if p m then (i, m) :: idx_filter p rest (i + 1) else idx_filter p rest (i + 1)

/-- The unconsolidated members of a working set, with their positions
(line 219 of src/memory_system.py). -/
def unconsolidated_of (l : List MemoryEntry) : List (Nat × MemoryEntry) :=
  idx_filter (fun m => !m.consolidated) l 0

/-- Fold step keeping the first occurrence of each key, modelling dict
insertion order. -/
def insert_once (acc : List MemoryCategory) (c : MemoryCategory) : List MemoryCategory :=
  if c ∈ acc then acc else acc ++ [c]

/-- The category keys of the by_category dict, in insertion order. -/
def dedup_first (l : List MemoryCategory) : List MemoryCategory :=
  l.foldl insert_once []

/-- Category keys of the unconsolidated partition (lines 224-228). -/
def cats_of (u : List (Nat × MemoryEntry)) : List MemoryCategory :=
  dedup_first (u.map (fun p => p.2.category))

/-- The by_category group for one category. -/
def group_for (u : List (Nat × MemoryEntry)) (c : MemoryCategory) : List (Nat × MemoryEntry) :=
  u.filter (fun p => p.2.category == c)

/-- Python max() over the importances of a non-empty group (line 245). -/
def max_importance : List (Nat × MemoryEntry) → Int
  | [] => 0
  | p :: rest => rest.foldl (fun a q => max a q.2.importance) p.2.importance

/-- The content string synthesized for a consolidated memory
(lines 236-237). -/
def consolidated_content (c : MemoryCategory) (g : List (Nat × MemoryEntry)) : String :=
  "Consolidated insights from " ++ toString g.length ++ " memories about " ++
    category_text c ++ ":\n" ++
    String.intercalate "\n" (g.map (fun p => "- " ++ p.2.content))

/-- The consolidated MemoryEntry constructed at lines 239-252. -/
def mk_consolidated_entry (now : Int) (c : MemoryCategory) (g : List (Nat × MemoryEntry)) : MemoryEntry :=
  { timestamp := now
    memory_type := MemoryType.semantic
    category := c
    content := consolidated_content c g
    context := "Memory consolidation for category " ++ category_text c
    importance := max_importance g
    conversation := none
    metadata := [("consolidated_from", MetaVal.intList (g.map (fun p => p.2.timestamp))),
                 ("memory_count", MetaVal.int g.length)]
    references := g.map (fun p => p.2.timestamp)
    last_accessed := none
    access_count := 0
    consolidated := true }

/-- The `memory.consolidated = True` object mutation (lines 258-259). -/
def set_consolidated (m : MemoryEntry) : MemoryEntry :=
  { m with consolidated := true }

/-- Set the consolidated flag of the element at one position (the
`memory.consolidated = True` object mutation at lines 258-259). -/
def flag_at : List MemoryEntry → Nat → List MemoryEntry
  | [], _ => []
  | m :: rest, 0 => set_consolidated m :: rest
  | m :: rest, i + 1 => m :: flag_at rest i

/-- Flag every position in the given list of positions. -/
def flag_all (l : List MemoryEntry) (idxs : List Nat) : List MemoryEntry :=
  idxs.foldl flag_at l

/-- The four recursively entangled operations add_memory,
_check_consolidation, _consolidate_memories and the per-category loop
body of _consolidate_memories, identified by a call descriptor. -/
inductive MSCall where
  | add (now : Int) (s : MemorySystem) (e : MemoryEntry)
  | check (now : Int) (s : MemorySystem)
  | consol (now : Int) (s : MemorySystem)
  | loop (now : Int) (u : List (Nat × MemoryEntry)) (cats : List MemoryCategory) (s : MemorySystem)

/-- Result of a fueled run: the final state together with `true` for
normal completion or `false` for an aborted run (fuel exhaustion,
modelling a RecursionError that propagates out of every caller while the
mutations already performed are kept). -/
abbrev MSRes := MemorySystem × Bool

/-- One-step interpreter for the mutually recursive methods of
MemorySystem (add_memory lines 103-135, _check_consolidation lines
207-214, _consolidate_memories lines 216-261 of src/memory_system.py). -/
def ms_run : Nat → MSCall → MSRes
  | 0, MSCall.add _ s _ => (s, false)
  | 0, MSCall.check _ s => (s, false)
  | 0, MSCall.consol _ s => (s, false)
  | 0, MSCall.loop _ _ _ s => (s, false)
  | f + 1, MSCall.add now s e =>
      if s.settings.importance_threshold ≤ e.importance then
        let s1 : MemorySystem :=
          { s with
            vector_store := s.vector_store ++ entry_docs e
            memory_log := s.memory_log ++ [e]
            memories := s.memories ++ [e] }
        ms_run f (MSCall.check now s1)
      else (s, true)
  | f + 1, MSCall.check now s =>
      if s.settings.consolidation_interval_hours < now - s.last_consolidation then
        ms_run f (MSCall.consol now s)
      else (s, true)
  | f + 1, MSCall.consol now s =>
      let u := unconsolidated_of s.memories
      if u.length < 2 then (s, true)
      else
        match ms_run f (MSCall.loop now u (cats_of u) s) with
        | (s1, true) => ({ s1 with last_consolidation := now }, true)
        | (s1, false) => (s1, false)
  | _ + 1, MSCall.loop _ _ [] s => (s, true)
  | f + 1, MSCall.loop now u (c :: rest) s =>
      let g := group_for u c
      if g.length < 2 then ms_run f (MSCall.loop now u rest s)
      else
        let e := mk_consolidated_entry now c g
        match ms_run f (MSCall.add now s e) with
        | (s1, false) => (s1, false)
        | (s1, true) =>
            let s2 : MemorySystem := { s1 with memories := flag_all s1.memories (g.map (fun p => p.1)) }
            ms_run f (MSCall.loop now u rest s2)

/-- MemorySystem.add_memory as a fueled state transformer. -/
def add_memory (fuel : Nat) (now : Int) (s : MemorySystem) (e : MemoryEntry) : MSRes :=
  ms_run fuel (MSCall.add now s e)

/-- MemorySystem._check_consolidation as a fueled state transformer. -/
def check_consolidation (fuel : Nat) (now : Int) (s : MemorySystem) : MSRes :=
  ms_run fuel (MSCall.check now s)

/-- MemorySystem._consolidate_memories as a fueled state transformer. -/
def consolidate_memories (fuel : Nat) (now : Int) (s : MemorySystem) : MSRes :=
  ms_run fuel (MSCall.consol now s)

/-- Access bookkeeping applied to a retrieved entry (lines 196-198). -/
def bump_entry (now : Int) (m : MemoryEntry) : MemoryEntry :=
  { m with last_accessed := some now, access_count := m.access_count + 1 }

/-- Apply the access bookkeeping to the first working-set member with the
given timestamp (the in-place object mutation seen through the list). -/
def bump_first (now ts : Int) : List MemoryEntry → List MemoryEntry
  | [] => []
  | m :: rest =>
      if m.timestamp == ts then bump_entry now m :: rest
      else m :: bump_first now ts rest

/-- The iteration of MemorySystem._process_search_results (lines 184-203):
walk the ranked hits, skip already-seen timestamps, resolve each timestamp
against the working set (skipping unresolved ones), update access metrics,
and stop once `limit` distinct entries are collected.  Returns the updated
working set together with the result list. -/
def process_loop (now : Int) :
    List Doc → List MemoryEntry → List Int → List MemoryEntry → Nat →
    List MemoryEntry × List MemoryEntry
  | [], mems, _, acc, _ => (mems, acc)
  | d :: rest, mems, seen, acc, limit =>
      if d.timestamp ∈ seen then process_loop now rest mems seen acc limit
      else
        match mems.find? (fun m => m.timestamp == d.timestamp) with
        | none => process_loop now rest mems seen acc limit
        | some m =>
            let m1 := bump_entry now m
            let mems1 := bump_first now d.timestamp mems
            let acc1 := acc ++ [m1]
            if limit ≤ acc1.length then (mems1, acc1)
            else process_loop now rest mems1 (seen ++ [d.timestamp]) acc1 limit

/-- MemorySystem._process_search_results. -/
def process_search_results (now : Int) (mems : List MemoryEntry) (results : List Doc)
    (limit : Nat) : List MemoryEntry × List MemoryEntry :=
  process_loop now results mems [] [] limit

/-- MemorySystem.get_relevant_memories: the similarity query is the
external capability; its ranked output is the oracle list `hits`, of
which at most `k = limit * 2` results are returned (lines 172-177). -/
def get_relevant_memories (now : Int) (mems : List MemoryEntry) (hits : List Doc)
    (limit : Nat) : List MemoryEntry × List MemoryEntry :=
  process_search_results now mems (hits.take (2 * limit)) limit

/-- The retention predicate of MemorySystem.prune_memories
(lines 274-282): entry kept iff recent enough, important enough,
frequently accessed, or consolidated. -/
def retention_keep (stg : Settings) (now : Int) (m : MemoryEntry) : Bool :=
  (now - stg.memory_retention_days < m.timestamp) ||
  (stg.pruning_importance_threshold ≤ m.importance) ||
  (stg.min_access_keep ≤ m.access_count) ||
  m.consolidated

/-- MemorySystem.prune_memories (lines 263-285): filter the working set
by the retention predicate and rebuild the vector index from the
survivors.  The durable log is not touched. -/
def prune_memories (now : Int) (s : MemorySystem) : MemorySystem :=
  let kept := s.memories.filter (retention_keep s.settings now)
  { s with memories := kept, vector_store := init_vector_store kept }

end MemorySystem

/-- MiDO._load_or_init_state (src/mido.py lines 39-48): the last record of
the state log when non-empty, else the configured initial state.  A
missing or empty file is the empty list. -/
def load_or_init_state (stateLog : List State) (initial : State) : State :=
  match stateLog.getLast? with
  | some st => st
  | none => initial

/-- MiDO.save_state (src/mido.py lines 50-54): append one record and set
the current-state pointer. -/
def save_state (stateLog : List State) (st : State) : List State × State :=
  (stateLog ++ [st], st)

/-- The MiDO object state relevant to the conversation buffer path. -/
structure MiDO where
  memory_system : MemorySystem
  current_state : State
  current_conversation : Conversation
deriving DecidableEq, Repr

/-- Python `x or default` on an optional string: None and the empty
string are falsy. -/
def or_default (o : Option String) (d : String) : String :=
  match o with
  | some s => if s.isEmpty then d else s
  | none => d

/-- Deduplicated role list, modelling `list(set(...))` (the source set
iteration order is unspecified; first occurrence order is chosen). -/
def dedup_roles (l : List String) : List String :=
  l.foldl (fun acc r => if r ∈ acc then acc else acc ++ [r]) []

/-- The conversation MemoryEntry constructed by MiDO.save_conversation
(src/mido.py lines 70-82). -/
def mk_conversation_entry (now : Int) (d : MiDO) : MemoryEntry :=
  { timestamp := now
    memory_type := MemoryType.conversation
    category := MemoryCategory.human_interaction
    content := "Conversation with " ++ toString d.current_conversation.messages.length ++ " messages"
    context := or_default d.current_state.conversation_context "General interaction"
    importance := 5
    conversation := some d.current_conversation
    metadata := [("message_count", MetaVal.int d.current_conversation.messages.length),
                 ("participants", MetaVal.strList (dedup_roles (d.current_conversation.messages.map Message.role)))]
    references := []
    last_accessed := none
    access_count := 0
    consolidated := false }

/-- MiDO.save_conversation (src/mido.py lines 65-86): no-op on an empty
buffer; otherwise build one conversation entry, pass it through the gated
add, and reset the buffer.  If the nested add aborts, the buffer reset is
skipped (the exception propagates). -/
def save_conversation (fuel : Nat) (now : Int) (d : MiDO) : MiDO × Bool :=
  if d.current_conversation.messages.isEmpty then (d, true)
  else
    let mem := mk_conversation_entry now d
    match MemorySystem.add_memory fuel now d.memory_system mem with
    | (ms1, true) =>
        ({ d with memory_system := ms1, current_conversation := { messages := [], summary := none } }, true)
    | (ms1, false) => ({ d with memory_system := ms1 }, false)

/-- MiDO.add_message (src/mido.py lines 56-63). -/
def add_message (now : Int) (d : MiDO) (role content : String) : MiDO :=
  { d with current_conversation :=
      { d.current_conversation with
        messages := d.current_conversation.messages ++ [{ role := role, content := content, timestamp := now }] } }

/-- A retrieval call applied at the MemorySystem level: only the working
set is replaced by the bookkeeping-updated one. -/
def apply_retrieval (now : Int) (s : MemorySystem) (call : List Doc × Nat) : MemorySystem :=
  { s with memories := (MemorySystem.get_relevant_memories now s.memories call.1 call.2).1 }

/-- A sequence of retrieval calls. -/
def apply_retrievals (now : Int) (s : MemorySystem) (calls : List (List Doc × Nat)) : MemorySystem :=
  calls.foldl (apply_retrieval now) s

/-- The working set reconstructed after a process restart: the
MemorySystem constructor reloads it from the durable log
(src/memory_system.py line 28). -/
def restart_working_set (s : MemorySystem) : List MemoryEntry :=
  MemorySystem.load_memories s.memory_log

namespace MemorySystem

/-- Relation between a working-set member before and after a
consolidation pass: each original position either keeps its entry or has
its consolidated flag set (never any other mutation). -/
def flag_rel (a b : MemoryEntry) : Prop :=
  b = a ∨ b = set_consolidated a

/-- Extension relation between working sets across a consolidation pass:
the original positions are kept up to flag setting, and every appended
entry is already consolidated. -/
def ExtOk (A B : List MemoryEntry) : Prop :=
  ∃ B1 B2, B = B1 ++ B2 ∧ List.Forall₂ flag_rel A B1 ∧ ∀ b ∈ B2, b.consolidated = true

/-- Boolean predicate: unconsolidated member of the given category. -/
def uncons_cat (c : MemoryCategory) (m : MemoryEntry) : Bool :=
  !m.consolidated && (m.category == c)

/-- Categories of the partition holding at least two unconsolidated
members. -/
def big_cats (u : List (Nat × MemoryEntry)) : List MemoryCategory :=
  (cats_of u).filter (fun c => decide (2 ≤ (group_for u c).length))

/-- The entries synthesized and persisted by one consolidation pass over
the given category list, in pass order. -/
def loop_new_entries (now : Int) (u : List (Nat × MemoryEntry)) (cats : List MemoryCategory) :
    List MemoryEntry :=
  (cats.filter (fun c => decide (2 ≤ (group_for u c).length))).map
    (fun c => mk_consolidated_entry now c (group_for u c))

end MemorySystem

/-- Default-style settings fixture: importance threshold 5, all other
keys at their `.get` defaults. -/
def exSettings : Settings := { importance_threshold := 5 }

/-- Fixture entry: unconsolidated learning entry of importance 6. -/
def entryA : MemoryEntry :=
  { timestamp := 1, memory_type := MemoryType.episodic, category := MemoryCategory.learning,
    content := "a", context := "ctx", importance := 6 }

/-- Fixture entry: unconsolidated learning entry of importance 7. -/
def entryB : MemoryEntry :=
  { timestamp := 2, memory_type := MemoryType.episodic, category := MemoryCategory.learning,
    content := "b", context := "ctx", importance := 7 }

/-- Fixture entry: unconsolidated learning entry of importance 8. -/
def entryC : MemoryEntry :=
  { timestamp := 3, memory_type := MemoryType.episodic, category := MemoryCategory.learning,
    content := "c", context := "ctx", importance := 8 }

/-- Fixture entry above the threshold, for add/load round trips. -/
def entryD : MemoryEntry :=
  { timestamp := 4, memory_type := MemoryType.semantic, category := MemoryCategory.knowledge,
    content := "d", context := "ctx", importance := 6 }

/-- Fixture entry below the threshold. -/
def lowEntry : MemoryEntry :=
  { timestamp := 9, memory_type := MemoryType.episodic, category := MemoryCategory.knowledge,
    content := "low", context := "ctx", importance := 3 }

/-- Scenario A fixture: three unconsolidated learning entries of
importance 6, 7, 8. -/
def exMS : MemorySystem :=
  { settings := exSettings
    memory_log := [entryA, entryB, entryC]
    memories := [entryA, entryB, entryC]
    vector_store := MemorySystem.init_vector_store [entryA, entryB, entryC]
    last_consolidation := 0 }

/-- Counterexample fixture for the consolidation gate: threshold 9
exceeds every source importance. -/
def cexSettings : Settings := { importance_threshold := 9 }

/-- Counterexample state: two unconsolidated learning entries whose
maximum importance 7 is below the threshold 9. -/
def cexMS : MemorySystem :=
  { settings := cexSettings
    memory_log := [entryA, entryB]
    memories := [entryA, entryB]
    vector_store := MemorySystem.init_vector_store [entryA, entryB]
    last_consolidation := 0 }

/-- The unconsolidated partition of the re-entrancy fixture. -/
def c4U : List (Nat × MemoryEntry) := [(0, entryA), (1, entryB)]

/-- The entry synthesized (at every nesting depth) by the re-entrant
consolidation runs of the fixture. -/
def c4Synth : MemoryEntry := MemorySystem.mk_consolidated_entry 100 MemoryCategory.learning c4U

/-- Re-entrancy fixture base state: two unconsolidated learning entries,
with the consolidation interval long since elapsed at `now = 100`. -/
def c4Base : MemorySystem :=
  { settings := exSettings
    memory_log := [entryA, entryB]
    memories := [entryA, entryB]
    vector_store := MemorySystem.init_vector_store [entryA, entryB]
    last_consolidation := 0 }

/-- The effect of one nested gated add of the synthesized entry. -/
def c4_app (s : MemorySystem) : MemorySystem :=
  { s with
    vector_store := s.vector_store ++ MemorySystem.entry_docs c4Synth
    memory_log := s.memory_log ++ [c4Synth]
    memories := s.memories ++ [c4Synth] }

/-- The family of states reached after `k` nested re-entrant adds. -/
def c4S : Nat → MemorySystem
  | 0 => c4Base
  | k + 1 => c4_app (c4S k)

/-- Pruning counterexample entry: exactly `retentionDays` old at
`now = 30`, unimportant, never accessed, unconsolidated. -/
def pruneCexEntry : MemoryEntry :=
  { timestamp := 0, memory_type := MemoryType.episodic, category := MemoryCategory.knowledge,
    content := "old", context := "ctx", importance := 1 }

/-- Pruning counterexample state. -/
def pruneCexMS : MemorySystem :=
  { settings := exSettings
    memory_log := [pruneCexEntry]
    memories := [pruneCexEntry]
    vector_store := MemorySystem.init_vector_store [pruneCexEntry]
    last_consolidation := 0 }

/-- Retrieval fixture: first chunk of the entry at timestamp 1. -/
def docA : Doc :=
  { content := "a", timestamp := 1, memory_type := MemoryType.episodic,
    category := MemoryCategory.learning, importance := 6, chunk_index := 0, total_chunks := 2 }

/-- Retrieval fixture: second chunk of the same entry. -/
def docA2 : Doc := { docA with chunk_index := 1 }

/-- Retrieval fixture: chunk of the entry at timestamp 2. -/
def docB : Doc := { docA with timestamp := 2 }

/-- State-ledger fixture value. -/
def stInit : State := { current_focus := "init", emotional_state := "calm", energy_level := 50 }

/-- State-ledger fixture value. -/
def stNext : State := { current_focus := "work", emotional_state := "curious", energy_level := 60 }

/-- Conversation fixture messages. -/
def msgU : Message := { role := "user", content := "hi", timestamp := 5 }

/-- Conversation fixture messages. -/
def msgA : Message := { role := "assistant", content := "hello", timestamp := 6 }

/-- MiDO fixture with a two-message buffer. -/
def exMido : MiDO :=
  { memory_system := exMS
    current_state := stInit
    current_conversation := { messages := [msgU, msgA], summary := none } }

/-- The MiDO fixture state after flushing its conversation buffer at
instant 7. -/
def exMidoAfter : MiDO :=
  { memory_system :=
      { exMS with
        vector_store := exMS.vector_store ++ MemorySystem.entry_docs (mk_conversation_entry 7 exMido)
        memory_log := exMS.memory_log ++ [mk_conversation_entry 7 exMido]
        memories := exMS.memories ++ [mk_conversation_entry 7 exMido] }
    current_state := stInit
    current_conversation := { messages := [], summary := none } }

namespace MemorySystem

/-- Helper: a gated add whose entry passes the importance gate, run at an
instant at which consolidation is not yet due, appends the entry to the
vector index, the durable log and the working set, and does nothing
else. -/
theorem add_memory_gate_pass (f : Nat) (now : Int) (s : MemorySystem) (e : MemoryEntry)
    (hth : s.settings.importance_threshold ≤ e.importance)
    (hnd : now - s.last_consolidation ≤ s.settings.consolidation_interval_hours) :
    add_memory (f + 2) now s e =
      ({ s with
          vector_store := s.vector_store ++ entry_docs e
          memory_log := s.memory_log ++ [e]
          memories := s.memories ++ [e] }, true) := by
  have hc : ¬ (s.settings.consolidation_interval_hours < now - s.last_consolidation) :=
    not_lt.mpr hnd
  simp only [add_memory, ms_run]
  rw [if_pos hth, if_neg hc]

/-- Helper: a gated add whose entry fails the importance gate is an exact
no-op on the whole MemorySystem state. -/
theorem add_memory_gate_fail (f : Nat) (now : Int) (s : MemorySystem) (e : MemoryEntry)
    (hlow : e.importance < s.settings.importance_threshold) :
    add_memory (f + 1) now s e = (s, true) := by
  simp only [add_memory, ms_run]
  rw [if_neg (not_le.mpr hlow)]

end MemorySystem

namespace MemorySystem

/-- C5 (amended): prune_memories retains a working-set entry iff its age
is STRICTLY below `memory_retention_days` (the source compares
`fromisoformat(timestamp) > cutoff`, so an entry exactly retentionDays
old is dropped), or its importance meets the pruning threshold, or its
access count meets min_access_keep, or it is consolidated; dropped
entries leave only the working set (the durable log, settings and clock
are untouched) and the vector index is rebuilt from exactly the
survivors. -/
theorem prune_memories_spec (now : Int) (s : MemorySystem) :
    (prune_memories now s).memory_log = s.memory_log ∧
    (prune_memories now s).settings = s.settings ∧
    (prune_memories now s).last_consolidation = s.last_consolidation ∧
    (prune_memories now s).vector_store = init_vector_store (prune_memories now s).memories ∧
    ∀ m, m ∈ (prune_memories now s).memories ↔
      (m ∈ s.memories ∧
        (now - m.timestamp < s.settings.memory_retention_days ∨
         s.settings.pruning_importance_threshold ≤ m.importance ∨
         s.settings.min_access_keep ≤ m.access_count ∨
         m.consolidated = true)) := by
  refine ⟨rfl, rfl, rfl, rfl, fun m => ?_⟩
  simp only [prune_memories, List.mem_filter]
  refine and_congr_right fun _ => ?_
  cases hc : m.consolidated with
  | true => simp [retention_keep, hc]
  | false =>
      simp only [retention_keep, hc, Bool.or_false, Bool.or_eq_true, decide_eq_true_eq,
        Bool.false_eq_true, or_false]
      omega

/-- C5 counterexample: at `now = 30` the fixture entry has age exactly
`memory_retention_days = 30` (so the claim as stated would retain it: age
≤ retentionDays holds, the other three predicates fail), yet
prune_memories evicts it. -/
theorem prune_age_boundary_cex :
    (30 : Int) - pruneCexEntry.timestamp ≤ pruneCexMS.settings.memory_retention_days ∧
    pruneCexEntry.importance < pruneCexMS.settings.pruning_importance_threshold ∧
    pruneCexEntry.access_count < pruneCexMS.settings.min_access_keep ∧
    pruneCexEntry.consolidated = false ∧
    pruneCexEntry ∈ pruneCexMS.memories ∧
    (prune_memories 30 pruneCexMS).memories = [] := by
  decide

end MemorySystem

/-- C6: save_state appends exactly one record to the state log and sets
the current-state pointer; a subsequent load returns that state (last
record wins), and loading a missing or empty log yields the configured
initial state. -/
theorem state_ledger_spec (log : List State) (st init : State) :
    (save_state log st).1 = log ++ [st] ∧
    (save_state log st).2 = st ∧
    load_or_init_state (save_state log st).1 init = st ∧
    load_or_init_state [] init = init := by
  refine ⟨rfl, rfl, ?_, rfl⟩
  simp [save_state, load_or_init_state]

/-- C10: retrieval bookkeeping is in-memory only.  Any sequence of
get_relevant_memories calls leaves the durable log, the vector index, the
settings and the consolidation clock untouched, so the working set
reloaded after a restart equals the log contents verbatim: every
reloaded entry carries the access_count and last_accessed values it had
when appended, however often it was retrieved before the restart. -/
theorem retrieval_touches_working_set_only (now : Int) (s : MemorySystem)
    (calls : List (List Doc × Nat)) :
    (apply_retrievals now s calls).memory_log = s.memory_log ∧
    (apply_retrievals now s calls).vector_store = s.vector_store ∧
    (apply_retrievals now s calls).settings = s.settings ∧
    (apply_retrievals now s calls).last_consolidation = s.last_consolidation ∧
    restart_working_set (apply_retrievals now s calls) = MemorySystem.load_memories s.memory_log := by
  induction calls generalizing s with
  | nil => exact ⟨rfl, rfl, rfl, rfl, rfl⟩
  | cons c cs ih =>
      have h := ih (apply_retrieval now s c)
      simpa [apply_retrievals, apply_retrieval, restart_working_set,
        MemorySystem.load_memories] using h

/-- C9: flushing the conversation buffer is a no-op on an empty buffer;
with n ≥ 1 buffered messages it builds exactly one conversation entry of
fixed importance 5 carrying message_count = n and the participant set in
its metadata, routes it through the importance-gated add (appended when
the threshold is at most 5, silently dropped when the threshold exceeds
5), and resets the buffer to empty in either case. -/
theorem save_conversation_spec (f : Nat) (now : Int) (d : MiDO)
    (hnd : now - d.memory_system.last_consolidation ≤
      d.memory_system.settings.consolidation_interval_hours) :
    (d.current_conversation.messages = [] → save_conversation f now d = (d, true)) ∧
    (d.current_conversation.messages ≠ [] →
      (mk_conversation_entry now d).memory_type = MemoryType.conversation ∧
      (mk_conversation_entry now d).importance = 5 ∧
      (mk_conversation_entry now d).metadata =
        [("message_count", MetaVal.int d.current_conversation.messages.length),
         ("participants", MetaVal.strList
            (dedup_roles (d.current_conversation.messages.map Message.role)))] ∧
      (d.memory_system.settings.importance_threshold ≤ 5 →
        save_conversation (f + 2) now d =
          ({ d with
              memory_system :=
                { d.memory_system with
                  vector_store := d.memory_system.vector_store ++
                    MemorySystem.entry_docs (mk_conversation_entry now d)
                  memory_log := d.memory_system.memory_log ++ [mk_conversation_entry now d]
                  memories := d.memory_system.memories ++ [mk_conversation_entry now d] }
              current_conversation := { messages := [], summary := none } }, true)) ∧
      (5 < d.memory_system.settings.importance_threshold →
        save_conversation (f + 1) now d =
          ({ d with current_conversation := { messages := [], summary := none } }, true))) := by
  constructor
  · intro h
    simp [save_conversation, h]
  · intro hne
    have hempty : d.current_conversation.messages.isEmpty = false := by
      simpa [List.isEmpty_iff] using hne
    refine ⟨rfl, rfl, rfl, ?_, ?_⟩
    · intro hth
      have hadd := MemorySystem.add_memory_gate_pass f now d.memory_system
        (mk_conversation_entry now d) hth hnd
      simp only [save_conversation, hempty, Bool.false_eq_true, if_false]
      rw [hadd]
    · intro hth
      have hadd := MemorySystem.add_memory_gate_fail f now d.memory_system
        (mk_conversation_entry now d) hth
      simp only [save_conversation, hempty, Bool.false_eq_true, if_false]
      rw [hadd]

/-- Witness for the conversation flush: the two-message fixture flushed
at instant 7 yields the expected appended state with a reset buffer. -/
theorem save_conversation_witness :
    exMido.current_conversation.messages ≠ [] ∧
    exMido.memory_system.settings.importance_threshold ≤ 5 ∧
    save_conversation 9 7 exMido = (exMidoAfter, true) := by
  refine ⟨by decide, by decide, ?_⟩
  have h := ((save_conversation_spec 7 7 exMido (by decide)).2 (by decide)).2.2.2.1 (by decide)
  exact h.trans (by decide)

namespace MemorySystem

/-- Helper: the access bump preserves the timestamp. -/
theorem bump_entry_timestamp (now : Int) (m : MemoryEntry) :
    (bump_entry now m).timestamp = m.timestamp := rfl

/-- Helper: bumping one timestamp rewrites the first find for that
timestamp to the bumped entry. -/
theorem bump_first_find_same (now ts : Int) :
    ∀ l : List MemoryEntry, ∀ m : MemoryEntry,
      l.find? (fun x => x.timestamp == ts) = some m →
      (bump_first now ts l).find? (fun x => x.timestamp == ts) = some (bump_entry now m)
  | [], m, h => by simp at h
  | a :: rest, m, h => by
      by_cases ha : a.timestamp = ts
      · have hbeq : (a.timestamp == ts) = true := beq_iff_eq.mpr ha
        rw [List.find?_cons, hbeq] at h
        cases h
        rw [bump_first, if_pos hbeq, List.find?_cons]
        have : ((bump_entry now a).timestamp == ts) = true := by
          rw [bump_entry_timestamp]; exact hbeq
        rw [this]
      · have hbeq : (a.timestamp == ts) = false := by
          simp [ha]
        rw [List.find?_cons, hbeq] at h
        rw [bump_first, if_neg (by simp [hbeq]), List.find?_cons, hbeq]
        exact bump_first_find_same now ts rest m h

/-- Helper: bumping one timestamp leaves finds for a different timestamp
unchanged. -/
theorem bump_first_find_other (now ts ts2 : Int) (hne : ts2 ≠ ts) :
    ∀ l : List MemoryEntry,
      (bump_first now ts l).find? (fun x => x.timestamp == ts2) =
        l.find? (fun x => x.timestamp == ts2)
  | [] => rfl
  | a :: rest => by
      by_cases ha : a.timestamp = ts
      · have hbeq : (a.timestamp == ts) = true := beq_iff_eq.mpr ha
        have h2 : (a.timestamp == ts2) = false := by simp [ha, (Ne.symm hne)]
        have h2b : ((bump_entry now a).timestamp == ts2) = false := by
          rw [bump_entry_timestamp]; exact h2
        rw [bump_first, if_pos hbeq, List.find?_cons, h2b, List.find?_cons, h2]
      · have hbeq : (a.timestamp == ts) = false := by simp [ha]
        rw [bump_first, if_neg (by simp [hbeq]), List.find?_cons, List.find?_cons]
        cases hx : (a.timestamp == ts2)
        · exact bump_first_find_other now ts ts2 hne rest
        · rfl

/-- Helper: appending a fresh element keeps a timestamp list nodup. -/
theorem nodup_snoc {l : List Int} {a : Int} (h : l.Nodup) (ha : a ∉ l) :
    (l ++ [a]).Nodup := by
  simp [List.nodup_append, h, ha]

/-- Invariant lemma for the _process_search_results iteration: starting
from an accumulator shorter than the limit whose members were all bumped
from the original working set, the loop returns at most `limit` entries
with nodup timestamps, each produced by bumping the original first-match
for its timestamp exactly once, and findable (bumped) in the returned
working set. -/
theorem process_loop_spec (now : Int) :
    ∀ (hits : List Doc) (mems0 mems : List MemoryEntry) (seen : List Int)
      (acc : List MemoryEntry) (limit : Nat),
      seen = acc.map (fun r => r.timestamp) →
      acc.length < limit →
      (∀ ts : Int, ts ∉ seen →
        mems.find? (fun x => x.timestamp == ts) = mems0.find? (fun x => x.timestamp == ts)) →
      (∀ r ∈ acc, ∃ old,
        mems0.find? (fun x => x.timestamp == r.timestamp) = some old ∧
        r = bump_entry now old ∧
        mems.find? (fun x => x.timestamp == r.timestamp) = some r) →
      (acc.map (fun r => r.timestamp)).Nodup →
      (process_loop now hits mems seen acc limit).2.length ≤ limit ∧
      ((process_loop now hits mems seen acc limit).2.map (fun r => r.timestamp)).Nodup ∧
      (∀ r ∈ (process_loop now hits mems seen acc limit).2, ∃ old,
        mems0.find? (fun x => x.timestamp == r.timestamp) = some old ∧
        r = bump_entry now old ∧
        (process_loop now hits mems seen acc limit).1.find?
          (fun x => x.timestamp == r.timestamp) = some r)
  | [], mems0, mems, seen, acc, limit, hseen, hlen, _horig, hacc, hnd => by
      exact ⟨le_of_lt hlen, hnd, hacc⟩
  | d :: rest, mems0, mems, seen, acc, limit, hseen, hlen, horig, hacc, hnd => by
      by_cases hin : d.timestamp ∈ seen
      · rw [process_loop, if_pos hin]
        exact process_loop_spec now rest mems0 mems seen acc limit hseen hlen horig hacc hnd
      · rw [process_loop, if_neg hin]
        cases hfind : mems.find? (fun m => m.timestamp == d.timestamp) with
        | none =>
            exact process_loop_spec now rest mems0 mems seen acc limit hseen hlen horig hacc hnd
        | some m =>
            dsimp only
            have hmts : m.timestamp = d.timestamp := by
              have := List.find?_some hfind
              exact beq_iff_eq.mp this
            have hfound0 : mems0.find? (fun x => x.timestamp == d.timestamp) = some m :=
              (horig d.timestamp hin).symm.trans hfind
            have hm1ts : (bump_entry now m).timestamp = d.timestamp := by
              rw [bump_entry_timestamp]; exact hmts
            have hseen1 : seen ++ [d.timestamp] =
                (acc ++ [bump_entry now m]).map (fun r => r.timestamp) := by
              rw [List.map_append, ← hseen]
              simp [hm1ts]
            have hacc1 : ∀ r ∈ acc ++ [bump_entry now m], ∃ old,
                mems0.find? (fun x => x.timestamp == r.timestamp) = some old ∧
                r = bump_entry now old ∧
                (bump_first now d.timestamp mems).find?
                  (fun x => x.timestamp == r.timestamp) = some r := by
              intro r hr
              rcases List.mem_append.mp hr with hr | hr
              · obtain ⟨old, h1, h2, h3⟩ := hacc r hr
                have hrts : r.timestamp ≠ d.timestamp := by
                  intro hcontra
                  apply hin
                  rw [hseen, ← hcontra]
                  exact List.mem_map_of_mem _ hr
                exact ⟨old, h1, h2,
                  (bump_first_find_other now d.timestamp r.timestamp hrts mems).trans h3⟩
              · rcases List.mem_singleton.mp hr with rfl
                refine ⟨m, ?_, rfl, ?_⟩
                · rw [hm1ts]; exact hfound0
                · rw [hm1ts]
                  exact bump_first_find_same now d.timestamp mems m hfind
            have hts_notin : d.timestamp ∉ acc.map (fun r => r.timestamp) := by
              rw [← hseen]; exact hin
            have hnd1 : ((acc ++ [bump_entry now m]).map (fun r => r.timestamp)).Nodup := by
              rw [List.map_append]
              simp only [List.map_cons, List.map_nil, hm1ts]
              exact nodup_snoc hnd hts_notin
            by_cases hstop : limit ≤ (acc ++ [bump_entry now m]).length
            · rw [if_pos hstop]
              refine ⟨?_, hnd1, hacc1⟩
              show (acc ++ [bump_entry now m]).length ≤ limit
              simp only [List.length_append, List.length_cons, List.length_nil]
              omega
            · rw [if_neg hstop]
              have horig1 : ∀ ts : Int, ts ∉ seen ++ [d.timestamp] →
                  (bump_first now d.timestamp mems).find? (fun x => x.timestamp == ts) =
                    mems0.find? (fun x => x.timestamp == ts) := by
                intro ts hts
                have h1 : ts ≠ d.timestamp := by
                  intro hcontra; exact hts (by rw [hcontra]; simp)
                have h2 : ts ∉ seen := fun hc => hts (List.mem_append.mpr (Or.inl hc))
                exact (bump_first_find_other now d.timestamp ts h1 mems).trans (horig ts h2)
              exact process_loop_spec now rest mems0 (bump_first now d.timestamp mems)
                (seen ++ [d.timestamp]) (acc ++ [bump_entry now m]) limit
                hseen1 (by omega) horig1 hacc1 hnd1

/-- Specification of get_relevant_memories: at most `limit` results,
pairwise-distinct timestamps, and each result is the original first
working-set match for its timestamp with its access_count incremented by
exactly one and last_accessed set; the returned working set holds the
bumped entry at that timestamp. -/
theorem get_relevant_spec (now : Int) (mems : List MemoryEntry) (hits : List Doc)
    (limit : Nat) :
    (get_relevant_memories now mems hits limit).2.length ≤ limit ∧
    ((get_relevant_memories now mems hits limit).2.map (fun r => r.timestamp)).Nodup ∧
    (∀ r ∈ (get_relevant_memories now mems hits limit).2, ∃ old,
      mems.find? (fun x => x.timestamp == r.timestamp) = some old ∧
      r = bump_entry now old ∧
      (get_relevant_memories now mems hits limit).1.find?
        (fun x => x.timestamp == r.timestamp) = some r) := by
  cases limit with
  | zero =>
      simp only [get_relevant_memories, process_search_results, Nat.mul_zero, List.take_zero]
      exact ⟨le_refl 0, List.nodup_nil, by intro r hr; simp [process_loop] at hr⟩
  | succ n =>
      exact process_loop_spec now (hits.take (2 * (n + 1))) mems mems [] [] (n + 1)
        rfl (Nat.succ_pos n) (fun _ _ => rfl) (by intro r hr; simp at hr) List.nodup_nil

end MemorySystem

namespace MemorySystem

/-- C2: retrieval returns at most `limit` entries with pairwise-distinct
timestamps, deduplicating by timestamp with the first (highest ranked)
occurrence winning; each surfaced entry is the original first working-set
match for its timestamp with access_count incremented by exactly 1 for
the whole call (chunk multiplicity notwithstanding) and last_accessed set
to the call instant, and the updated working set holds that bumped entry
as its first match for the timestamp. -/
theorem retrieve_dedup_and_bookkeeping (now : Int) (mems : List MemoryEntry)
    (hits : List Doc) (limit : Nat) :
    (get_relevant_memories now mems hits limit).2.length ≤ limit ∧
    ((get_relevant_memories now mems hits limit).2.map (fun r => r.timestamp)).Nodup ∧
    (∀ r ∈ (get_relevant_memories now mems hits limit).2, ∃ old,
      mems.find? (fun x => x.timestamp == r.timestamp) = some old ∧
      r = bump_entry now old ∧
      (get_relevant_memories now mems hits limit).1.find?
        (fun x => x.timestamp == r.timestamp) = some r) :=
  get_relevant_spec now mems hits limit

/-- Witness for the retrieval guarantees: Scenario C on the fixture,
where both chunks of the entry at timestamp 1 rank highest: one result
per timestamp, access_count bumped to 1 (not 2). -/
theorem retrieve_dedup_witness :
    (get_relevant_memories 50 [entryA, entryB, entryC] [docA, docA2, docB] 2).2.length ≤ 2 ∧
    ((get_relevant_memories 50 [entryA, entryB, entryC] [docA, docA2, docB] 2).2.map
      (fun r => r.timestamp)).Nodup ∧
    (get_relevant_memories 50 [entryA, entryB, entryC] [docA, docA2, docB] 2).2 =
      [bump_entry 50 entryA, bump_entry 50 entryB] ∧
    ((get_relevant_memories 50 [entryA, entryB, entryC] [docA, docA2, docB] 2).2.map
      (fun r => r.access_count)) = [1, 1] := by
  have h := retrieve_dedup_and_bookkeeping 50 [entryA, entryB, entryC] [docA, docA2, docB] 2
  exact ⟨h.1, h.2.1, by decide, by decide⟩

/-- C1: the importance gate of add_memory.  When the entry meets the
threshold (and consolidation is not yet due, so that the add is observed
in isolation), the add appends the entry to the vector index, the durable
log and the working set.  When the entry is below the threshold, the add
is an exact no-op (not an error) on the entire state, and an entry whose
timestamp is absent from the working set can never be surfaced by any
subsequent retrieval. -/
theorem add_memory_importance_gate (f : Nat) (now : Int) (s : MemorySystem) (e : MemoryEntry)
    (hnd : now - s.last_consolidation ≤ s.settings.consolidation_interval_hours) :
    (s.settings.importance_threshold ≤ e.importance →
      add_memory (f + 2) now s e =
        ({ s with
            vector_store := s.vector_store ++ entry_docs e
            memory_log := s.memory_log ++ [e]
            memories := s.memories ++ [e] }, true)) ∧
    (e.importance < s.settings.importance_threshold →
      add_memory (f + 2) now s e = (s, true) ∧
      (∀ now2 : Int, ∀ hits : List Doc, ∀ limit : Nat,
        (∀ m ∈ s.memories, m.timestamp ≠ e.timestamp) →
        e ∉ (get_relevant_memories now2 s.memories hits limit).2)) := by
  constructor
  · intro hth
    exact add_memory_gate_pass f now s e hth hnd
  · intro hlow
    refine ⟨add_memory_gate_fail (f + 1) now s e hlow, ?_⟩
    intro now2 hits limit hfresh he
    obtain ⟨old, hfindold, _hbump, _⟩ := (get_relevant_spec now2 s.memories hits limit).2.2 e he
    have hmem : old ∈ s.memories := List.mem_of_find?_eq_some hfindold
    have hpred := List.find?_some hfindold
    exact hfresh old hmem (beq_iff_eq.mp hpred)

/-- Witness for the importance gate: the below-threshold fixture entry is
a no-op and is never retrievable; the above-threshold fixture entry is
appended to the log. -/
theorem add_memory_importance_gate_witness :
    ((7 : Int) - exMS.last_consolidation ≤ exMS.settings.consolidation_interval_hours) ∧
    (lowEntry.importance < exMS.settings.importance_threshold) ∧
    add_memory 5 7 exMS lowEntry = (exMS, true) ∧
    lowEntry ∉ (get_relevant_memories 50 exMS.memories [docA, docA2, docB] 2).2 ∧
    (exMS.settings.importance_threshold ≤ entryD.importance) ∧
    (add_memory 5 7 exMS entryD).1.memory_log = exMS.memory_log ++ [entryD] := by
  have hlow := (add_memory_importance_gate 3 7 exMS lowEntry (by decide)).2 (by decide)
  have hpass := (add_memory_importance_gate 3 7 exMS entryD (by decide)).1 (by decide)
  refine ⟨by decide, by decide, hlow.1, ?_, by decide, ?_⟩
  · exact hlow.2 50 [docA, docA2, docB] 2 (by decide)
  · rw [hpass]

/-- C7: an add that passes the importance gate followed by a load of the
durable log yields the prior records in write order with the new entry
appended verbatim as the last record (all fields exactly as they were at
add time). -/
theorem add_then_load_round_trip (f : Nat) (now : Int) (s : MemorySystem) (e : MemoryEntry)
    (hth : s.settings.importance_threshold ≤ e.importance)
    (hnd : now - s.last_consolidation ≤ s.settings.consolidation_interval_hours) :
    load_memories ((add_memory (f + 2) now s e).1.memory_log) =
      load_memories s.memory_log ++ [e] ∧
    ((add_memory (f + 2) now s e).1.memory_log).getLast? = some e ∧
    e ∈ (add_memory (f + 2) now s e).1.memory_log := by
  have h := add_memory_gate_pass f now s e hth hnd
  rw [h]
  refine ⟨rfl, ?_, ?_⟩
  · simp [load_memories]
  · simp

/-- Witness for the add/load round trip at the fixture state. -/
theorem add_then_load_round_trip_witness :
    (exMS.settings.importance_threshold ≤ entryD.importance) ∧
    ((7 : Int) - exMS.last_consolidation ≤ exMS.settings.consolidation_interval_hours) ∧
    load_memories ((add_memory 6 7 exMS entryD).1.memory_log) =
      [entryA, entryB, entryC, entryD] := by
  have h := (add_then_load_round_trip 4 7 exMS entryD (by decide) (by decide)).1
  exact ⟨by decide, by decide, h.trans (by decide)⟩

end MemorySystem

namespace MemorySystem

/-- Helper: indexed filtering distributes over a one-element append. -/
theorem idx_filter_append (p : MemoryEntry → Bool) :
    ∀ (l : List MemoryEntry) (e : MemoryEntry) (n : Nat),
      idx_filter p (l ++ [e]) n =
        idx_filter p l n ++ (if p e then [(n + l.length, e)] else [])
  | [], e, n => by
      simp [idx_filter]
  | m :: rest, e, n => by
      have harith : n + 1 + rest.length = n + (rest.length + 1) := by omega
      by_cases hp : p m = true
      · simp only [List.cons_append, idx_filter, hp, if_true, List.length_cons,
          List.append_eq]
        rw [idx_filter_append p rest e (n + 1), harith]
      · simp only [List.cons_append, idx_filter, hp, if_false, List.length_cons,
          Bool.false_eq_true, List.append_eq]
        rw [idx_filter_append p rest e (n + 1), harith]

/-- Helper: the settings of the re-entrancy fixture family are constant. -/
theorem c4S_settings : ∀ k, (c4S k).settings = exSettings
  | 0 => rfl
  | k + 1 => c4S_settings k

/-- Helper: the consolidation clock of the fixture family never moves
(the update at the end of _consolidate_memories is never reached). -/
theorem c4S_last : ∀ k, (c4S k).last_consolidation = 0
  | 0 => rfl
  | k + 1 => c4S_last k

/-- Helper: the unconsolidated partition of the fixture family is always
the two original learning entries, because every entry appended by a
nested add is synthesized with consolidated = true. -/
theorem c4S_uncons : ∀ k, unconsolidated_of (c4S k).memories = c4U
  | 0 => by decide
  | k + 1 => by
      show idx_filter (fun m => !m.consolidated) ((c4S k).memories ++ [c4Synth]) 0 = c4U
      rw [idx_filter_append]
      rw [if_neg (by decide)]
      rw [List.append_nil]
      exact c4S_uncons (k := k)

/-- Helper: at the re-entrancy fixture every run of any of the four
entangled operations aborts at every fuel budget: the nested add of the
synthesized entry always finds the consolidation clock unmoved, finds the
interval still elapsed, and re-enters _consolidate_memories before the
sources are flagged, without bound. -/
theorem c4_all_abort : ∀ f : Nat,
    (∀ k, (ms_run f (MSCall.consol 100 (c4S k))).2 = false) ∧
    (∀ k, (ms_run f (MSCall.loop 100 c4U [MemoryCategory.learning] (c4S k))).2 = false) ∧
    (∀ k, (ms_run f (MSCall.add 100 (c4S k) c4Synth)).2 = false) ∧
    (∀ k, (ms_run f (MSCall.check 100 (c4S k))).2 = false)
  | 0 => ⟨fun _ => rfl, fun _ => rfl, fun _ => rfl, fun _ => rfl⟩
  | f + 1 => by
      obtain ⟨ihc, ihl, iha, ihk⟩ := c4_all_abort f
      refine ⟨?_, ?_, ?_, ?_⟩
      · intro k
        have hloop := ihl k
        simp only [ms_run]
        rw [c4S_uncons k]
        rw [if_neg (show ¬(c4U.length < 2) by decide)]
        rw [(by decide : cats_of c4U = [MemoryCategory.learning])]
        cases hl : ms_run f (MSCall.loop 100 c4U [MemoryCategory.learning] (c4S k)) with
        | mk s1 b =>
            rw [hl] at hloop
            cases b
            · rfl
            · simp at hloop
      · intro k
        have hadd := iha k
        simp only [ms_run]
        rw [if_neg (show ¬((group_for c4U MemoryCategory.learning).length < 2) by decide)]
        rw [(by rfl : mk_consolidated_entry 100 MemoryCategory.learning
          (group_for c4U MemoryCategory.learning) = c4Synth)]
        cases ha : ms_run f (MSCall.add 100 (c4S k) c4Synth) with
        | mk s1 b =>
            rw [ha] at hadd
            cases b
            · rfl
            · simp at hadd
      · intro k
        have hgate : (c4S k).settings.importance_threshold ≤ c4Synth.importance := by
          rw [c4S_settings]; decide
        simp only [ms_run]
        rw [if_pos hgate]
        exact ihk (k + 1)
      · intro k
        have hdue : (c4S k).settings.consolidation_interval_hours <
            100 - (c4S k).last_consolidation := by
          rw [c4S_settings, c4S_last]; decide
        simp only [ms_run]
        rw [if_pos hdue]
        exact ihc k

/-- C4 (code_bug): no re-entrancy guard exists.  At the fixture state
(two unconsolidated learning entries, consolidation interval elapsed),
the nested add issued for the synthesized entry re-triggers consolidation
before the sources of the current run are flagged, and this recursion
never terminates: the run aborts (models the Python RecursionError) at
every fuel budget, contradicting the claim that a nested invocation of
the consolidation algorithm from within the synthesized entry add is
impossible. -/
theorem consolidation_reentrancy_bug :
    ∀ fuel : Nat, (ms_run fuel (MSCall.consol 100 (c4S 0))).2 = false :=
  fun fuel => (c4_all_abort fuel).1 0

end MemorySystem

namespace MemorySystem

/-- Helper: setting the flag twice equals setting it once. -/
theorem set_consolidated_idem (a : MemoryEntry) :
    set_consolidated (set_consolidated a) = set_consolidated a := rfl

/-- Helper: flag_rel is reflexive. -/
theorem flag_rel_refl (a : MemoryEntry) : flag_rel a a := Or.inl rfl

/-- Helper: flag_rel composes. -/
theorem flag_rel_comp {a b c : MemoryEntry} (h1 : flag_rel a b) (h2 : flag_rel b c) :
    flag_rel a c := by
  rcases h1 with rfl | rfl
  · exact h2
  · rcases h2 with rfl | rfl
    · exact Or.inr rfl
    · exact Or.inr (set_consolidated_idem a)

/-- Helper: flag_rel preserves an already-set flag. -/
theorem flag_rel_cons_true {a b : MemoryEntry} (ha : a.consolidated = true)
    (h : flag_rel a b) : b.consolidated = true := by
  rcases h with rfl | rfl
  · exact ha
  · rfl

/-- Helper: a flag_rel successor that is still unconsolidated is the
original entry unchanged. -/
theorem flag_rel_uncons {a b : MemoryEntry} (h : flag_rel a b)
    (hb : b.consolidated = false) : b = a := by
  rcases h with rfl | rfl
  · rfl
  · simp [set_consolidated] at hb

/-- Helper: componentwise flag_rel composes. -/
theorem forall2_flag_comp : ∀ {A B C : List MemoryEntry},
    List.Forall₂ flag_rel A B → List.Forall₂ flag_rel B C → List.Forall₂ flag_rel A C
  | _, _, _, List.Forall₂.nil, List.Forall₂.nil => List.Forall₂.nil
  | _, _, _, List.Forall₂.cons h1 t1, List.Forall₂.cons h2 t2 =>
      List.Forall₂.cons (flag_rel_comp h1 h2) (forall2_flag_comp t1 t2)

/-- Helper: every member of the right list of a Forall₂ has a related
member on the left. -/
theorem forall2_right_mem {R : MemoryEntry → MemoryEntry → Prop} :
    ∀ {A B : List MemoryEntry}, List.Forall₂ R A B → ∀ b ∈ B, ∃ a ∈ A, R a b
  | _, _, List.Forall₂.nil, b, hb => by simp at hb
  | _, _, List.Forall₂.cons h1 t1, b, hb => by
      rcases List.mem_cons.mp hb with rfl | hb
      · exact ⟨_, List.mem_cons_self _ _, h1⟩
      · obtain ⟨a, ha, hr⟩ := forall2_right_mem t1 b hb
        exact ⟨a, List.mem_cons_of_mem _ ha, hr⟩

/-- Helper: ExtOk is reflexive. -/
theorem extok_refl (A : List MemoryEntry) : ExtOk A A :=
  ⟨A, [], (List.append_nil A).symm,
    List.forall₂_same.mpr (fun x _ => flag_rel_refl x), by simp⟩

/-- Helper: appending one consolidated entry is an ExtOk step. -/
theorem extok_append_cons (A : List MemoryEntry) (e : MemoryEntry)
    (he : e.consolidated = true) : ExtOk A (A ++ [e]) :=
  ⟨A, [e], rfl, List.forall₂_same.mpr (fun x _ => flag_rel_refl x), by simp [he]⟩

/-- Helper: a Forall₂ whose left list is an append splits the right list
at the same point. -/
theorem forall2_append_split {R : MemoryEntry → MemoryEntry → Prop} :
    ∀ {A1 A2 B : List MemoryEntry}, List.Forall₂ R (A1 ++ A2) B →
      List.Forall₂ R A1 (B.take A1.length) ∧ List.Forall₂ R A2 (B.drop A1.length)
  | [], A2, B, h => by simpa using h
  | a :: rest, A2, B, h => by
      rcases h with _ | ⟨h1, t1⟩
      rename_i b B'
      obtain ⟨ht, hd⟩ := forall2_append_split t1
      exact ⟨List.Forall₂.cons h1 ht, hd⟩

/-- Helper: ExtOk is transitive. -/
theorem extok_trans {A B C : List MemoryEntry} (h1 : ExtOk A B) (h2 : ExtOk B C) :
    ExtOk A C := by
  obtain ⟨B1, B2, rfl, hf1, hb2⟩ := h1
  obtain ⟨C1, C2, rfl, hf2, hc2⟩ := h2
  obtain ⟨htake, hdrop⟩ := forall2_append_split hf2
  refine ⟨C1.take B1.length, C1.drop B1.length ++ C2, ?_, ?_, ?_⟩
  · rw [← List.append_assoc, List.take_append_drop]
  · exact forall2_flag_comp hf1 htake
  · intro b hb
    rcases List.mem_append.mp hb with hb | hb
    · obtain ⟨a, ha, hr⟩ := forall2_right_mem hdrop b hb
      exact flag_rel_cons_true (hb2 a ha) hr
    · exact hc2 b hb

/-- Helper: ExtOk only lengthens the working set. -/
theorem extok_length_le {A B : List MemoryEntry} (h : ExtOk A B) :
    A.length ≤ B.length := by
  obtain ⟨B1, B2, rfl, hf, _⟩ := h
  rw [List.length_append, hf.length_eq]
  omega

/-- Helper: positions below the original length satisfy flag_rel across
an ExtOk step. -/
theorem extok_prefix_getElem {A B : List MemoryEntry} (h : ExtOk A B) (i : Nat)
    (hA : i < A.length) (hB : i < B.length) :
    flag_rel (A.get ⟨i, hA⟩) (B.get ⟨i, hB⟩) := by
  obtain ⟨B1, B2, rfl, hf, _⟩ := h
  have hlen : A.length = B1.length := hf.length_eq
  have hiB1 : i < B1.length := by omega
  have : (B1 ++ B2).get ⟨i, hB⟩ = B1.get ⟨i, hiB1⟩ := by
    simp only [List.get_eq_getElem]
    exact List.getElem_append_left hiB1
  rw [this]
  exact hf.get hA hiB1

/-- Helper: positions at or beyond the original length are consolidated
after an ExtOk step. -/
theorem extok_suffix_cons {A B : List MemoryEntry} (h : ExtOk A B) (i : Nat)
    (hB : i < B.length) (hge : A.length ≤ i) :
    (B.get ⟨i, hB⟩).consolidated = true := by
  obtain ⟨B1, B2, rfl, hf, hb2⟩ := h
  have hlen : A.length = B1.length := hf.length_eq
  have hgeB1 : B1.length ≤ i := by omega
  have : (B1 ++ B2).get ⟨i, hB⟩ = B2.get ⟨i - B1.length, by
      have := List.length_append B1 B2; omega⟩ := by
    simp only [List.get_eq_getElem]
    exact List.getElem_append_right hgeB1
  rw [this]
  exact hb2 _ (List.get_mem _ _ _)

/-- Helper: a consolidated flag at a surviving position persists across
an ExtOk step (getElem? form). -/
theorem extok_persist {A B : List MemoryEntry} (h : ExtOk A B) (i : Nat)
    (m : MemoryEntry) (hm : A[i]? = some m) (hc : m.consolidated = true) :
    ∃ m2, B[i]? = some m2 ∧ m2.consolidated = true := by
  obtain ⟨hA, hget⟩ := List.getElem?_eq_some.mp hm
  have hB : i < B.length := lt_of_lt_of_le hA (extok_length_le h)
  refine ⟨B[i], List.getElem?_eq_getElem hB, ?_⟩
  have hrel := extok_prefix_getElem h i hA hB
  simp only [List.get_eq_getElem, hget] at hrel
  exact flag_rel_cons_true hc hrel

/-- Helper: getElem? across an ExtOk step at a surviving position. -/
theorem extok_prefix_getElem? {A B : List MemoryEntry} (h : ExtOk A B) (i : Nat)
    (m2 : MemoryEntry) (hi : i < A.length) (hm2 : B[i]? = some m2) :
    ∃ a, A[i]? = some a ∧ flag_rel a m2 := by
  have hB : i < B.length := (List.getElem?_eq_some.mp hm2).1
  refine ⟨A[i], List.getElem?_eq_getElem hi, ?_⟩
  have hrel := extok_prefix_getElem h i hi hB
  have hget : B[i] = m2 := (List.getElem?_eq_some.mp hm2).2
  simpa only [List.get_eq_getElem, hget] using hrel

/-- Helper: flag_at at one position, described through getElem?. -/
theorem flag_at_getElem? :
    ∀ (l : List MemoryEntry) (i j : Nat),
      (flag_at l i)[j]? = if j = i then l[j]?.map set_consolidated else l[j]?
  | [], i, j => by
      simp [flag_at]
  | m :: rest, i, j => by
      cases i with
      | zero =>
          cases j with
          | zero => simp [flag_at]
          | succ k => simp [flag_at]
      | succ i2 =>
          cases j with
          | zero => simp [flag_at]
          | succ k =>
              have := flag_at_getElem? rest i2 k
              simp only [flag_at, List.getElem?_cons_succ]
              rw [this]
              by_cases hk : k = i2
              · rw [if_pos hk, if_pos (by omega)]
              · rw [if_neg hk, if_neg (by omega)]

/-- Helper: flag_at preserves length. -/
theorem flag_at_length : ∀ (l : List MemoryEntry) (i : Nat),
    (flag_at l i).length = l.length
  | [], _ => rfl
  | _ :: rest, 0 => by simp [flag_at]
  | _ :: rest, i + 1 => by simp [flag_at, flag_at_length rest i]

/-- Helper: flag_all preserves length. -/
theorem flag_all_length : ∀ (idxs : List Nat) (l : List MemoryEntry),
    (flag_all l idxs).length = l.length
  | [], _ => rfl
  | i :: rest, l => by
      show (flag_all (flag_at l i) rest).length = l.length
      rw [flag_all_length rest (flag_at l i), flag_at_length]

/-- Helper: flag_all described through getElem?. -/
theorem flag_all_getElem? :
    ∀ (idxs : List Nat) (l : List MemoryEntry) (i : Nat),
      (flag_all l idxs)[i]? = if i ∈ idxs then l[i]?.map set_consolidated else l[i]?
  | [], l, i => by simp [flag_all]
  | j :: rest, l, i => by
      show (flag_all (flag_at l j) rest)[i]? = _
      rw [flag_all_getElem? rest (flag_at l j) i, flag_at_getElem?]
      by_cases hmem : i ∈ rest
      · rw [if_pos hmem, if_pos (List.mem_cons_of_mem j hmem)]
        by_cases hij : i = j
        · rw [if_pos hij]
          cases hl : l[i]? with
          | none => rfl
          | some a => simp [set_consolidated_idem]
        · rw [if_neg hij]
      · rw [if_neg hmem]
        by_cases hij : i = j
        · rw [if_pos hij, if_pos (by simp [hij])]
        · rw [if_neg hij, if_neg (by simp [hij, hmem])]

/-- Helper: flag_all is an ExtOk step. -/
theorem extok_flag_all (l : List MemoryEntry) (idxs : List Nat) :
    ExtOk l (flag_all l idxs) := by
  refine ⟨flag_all l idxs, [], (List.append_nil _).symm, ?_, by simp⟩
  refine List.forall₂_of_length_eq_of_get (flag_all_length idxs l).symm ?_
  intro i h1 h2
  have := flag_all_getElem? idxs l i
  simp only [List.get_eq_getElem]
  by_cases hmem : i ∈ idxs
  · rw [if_pos hmem, List.getElem?_eq_getElem h1, Option.map_some'] at this
    have h3 := List.getElem?_eq_getElem h2
    rw [this] at h3
    exact Or.inr (Option.some.inj h3).symm
  · rw [if_neg hmem, List.getElem?_eq_getElem h1] at this
    have h3 := List.getElem?_eq_getElem h2
    rw [this] at h3
    exact Or.inl (Option.some.inj h3).symm

/-- Helper: a flagged position is consolidated after flag_all. -/
theorem flag_all_flags (l : List MemoryEntry) (idxs : List Nat) (i : Nat)
    (hmem : i ∈ idxs) (hi : i < l.length) :
    ∃ m, (flag_all l idxs)[i]? = some m ∧ m.consolidated = true := by
  have := flag_all_getElem? idxs l i
  rw [if_pos hmem, List.getElem?_eq_getElem hi, Option.map_some'] at this
  exact ⟨set_consolidated l[i], this, rfl⟩

end MemorySystem

namespace MemorySystem

/-- Helper: membership in the indexed filter. -/
theorem idx_filter_mem (p : MemoryEntry → Bool) :
    ∀ (l : List MemoryEntry) (n i : Nat) (m : MemoryEntry),
      ((i, m) ∈ idx_filter p l n ↔ ∃ j, i = n + j ∧ l[j]? = some m ∧ p m = true)
  | [], n, i, m => by simp [idx_filter]
  | a :: rest, n, i, m => by
      constructor
      · intro h
        by_cases hp : p a = true
        · rw [idx_filter, if_pos hp] at h
          rcases List.mem_cons.mp h with heq | h
          · obtain ⟨rfl, rfl⟩ := Prod.mk.injEq .. ▸ (Prod.mk.injEq i m n a).mp heq
            exact ⟨0, by omega, by simp, hp⟩
          · obtain ⟨j, hj, hjm, hjp⟩ := (idx_filter_mem p rest (n + 1) i m).mp h
            exact ⟨j + 1, by omega, by simpa using hjm, hjp⟩
        · rw [idx_filter, if_neg hp] at h
          obtain ⟨j, hj, hjm, hjp⟩ := (idx_filter_mem p rest (n + 1) i m).mp h
          exact ⟨j + 1, by omega, by simpa using hjm, hjp⟩
      · rintro ⟨j, rfl, hjm, hjp⟩
        cases j with
        | zero =>
            simp only [List.getElem?_cons_zero, Option.some.injEq] at hjm
            subst hjm
            rw [idx_filter, if_pos hjp]
            exact List.mem_cons_self _ _
        | succ k =>
            simp only [List.getElem?_cons_succ] at hjm
            have hrec := (idx_filter_mem p rest (n + 1) (n + 1 + k) m).mpr
              ⟨k, rfl, hjm, hjp⟩
            have harith : n + (k + 1) = n + 1 + k := by omega
            rw [harith]
            by_cases hp : p a = true
            · rw [idx_filter, if_pos hp]
              exact List.mem_cons_of_mem _ hrec
            · rw [idx_filter, if_neg hp]
              exact hrec

/-- Helper: membership in a category group of the unconsolidated
partition. -/
theorem group_mem (l : List MemoryEntry) (c : MemoryCategory) (i : Nat) (m : MemoryEntry) :
    ((i, m) ∈ group_for (unconsolidated_of l) c ↔
      (l[i]? = some m ∧ m.consolidated = false ∧ m.category = c)) := by
  rw [group_for, List.mem_filter, unconsolidated_of, idx_filter_mem]
  constructor
  · rintro ⟨⟨j, hij, hjm, hjp⟩, hcat⟩
    refine ⟨by rw [hij]; simpa using hjm, ?_, ?_⟩
    · simpa using hjp
    · simpa using hcat
  · rintro ⟨hm, hcons, hcat⟩
    exact ⟨⟨i, by omega, by simpa using hm, by simp [hcons]⟩, by simpa using hcat⟩

/-- Helper: a group is no longer than the whole partition. -/
theorem group_length_le (u : List (Nat × MemoryEntry)) (c : MemoryCategory) :
    (group_for u c).length ≤ u.length :=
  List.length_filter_le _ _

/-- Helper: the group length is the count of unconsolidated entries of
the category. -/
theorem idx_filter_group_length (c : MemoryCategory) :
    ∀ (l : List MemoryEntry) (n : Nat),
      ((idx_filter (fun m => !m.consolidated) l n).filter
        (fun p => p.2.category == c)).length = l.countP (uncons_cat c)
  | [], _ => rfl
  | a :: rest, n => by
      rw [List.countP_cons]
      by_cases hcons : a.consolidated = true
      · rw [idx_filter, if_neg (by simp [hcons])]
        rw [idx_filter_group_length c rest (n + 1)]
        simp [uncons_cat, hcons]
      · rw [idx_filter, if_pos (by simp [Bool.not_eq_true] at hcons ⊢; exact hcons)]
        by_cases hcat : a.category = c
        · rw [List.filter_cons_of_pos (by simpa using hcat)]
          rw [List.length_cons, idx_filter_group_length c rest (n + 1)]
          have : uncons_cat c a = true := by
            simp [uncons_cat, hcat, Bool.not_eq_true] at hcons ⊢
            exact hcons
          rw [this]
          simp
        · rw [List.filter_cons_of_neg (by simpa using hcat)]
          rw [idx_filter_group_length c rest (n + 1)]
          have : uncons_cat c a = false := by
            simp [uncons_cat, hcat]
          rw [this]
          simp

/-- Helper: group length as a working-set count. -/
theorem group_length_eq (l : List MemoryEntry) (c : MemoryCategory) :
    (group_for (unconsolidated_of l) c).length = l.countP (uncons_cat c) :=
  idx_filter_group_length c l 0

/-- Helper: membership survives dedup_first. -/
theorem mem_dedup_first (x : MemoryCategory) (l : List MemoryCategory) :
    x ∈ dedup_first l ↔ x ∈ l := by
  have key : ∀ (l2 : List MemoryCategory) (acc : List MemoryCategory),
      (x ∈ l2.foldl insert_once acc ↔ x ∈ acc ∨ x ∈ l2) := by
    intro l2
    induction l2 with
    | nil => intro acc; simp
    | cons a rest ih =>
        intro acc
        rw [List.foldl_cons, ih]
        have : x ∈ insert_once acc a ↔ x ∈ acc ∨ x = a := by
          rw [insert_once]
          by_cases ha : a ∈ acc
          · rw [if_pos ha]
            constructor
            · exact Or.inl
            · rintro (h | rfl)
              · exact h
              · exact ha
          · rw [if_neg ha]
            simp
        rw [this]
        simp only [List.mem_cons]
        tauto
  rw [dedup_first, key]
  simp

/-- Helper: dedup_first yields a nodup list. -/
theorem dedup_first_nodup (l : List MemoryCategory) : (dedup_first l).Nodup := by
  have key : ∀ (l2 : List MemoryCategory) (acc : List MemoryCategory),
      acc.Nodup → (l2.foldl insert_once acc).Nodup := by
    intro l2
    induction l2 with
    | nil => intro acc h; exact h
    | cons a rest ih =>
        intro acc h
        rw [List.foldl_cons]
        apply ih
        rw [insert_once]
        by_cases ha : a ∈ acc
        · rw [if_pos ha]; exact h
        · rw [if_neg ha]
          rw [← List.concat_eq_append]
          exact List.Nodup.concat ha h
  exact key l [] List.nodup_nil

/-- Helper: a category with a non-empty group appears in the partition
keys. -/
theorem mem_cats_of_of_group (u : List (Nat × MemoryEntry)) (c : MemoryCategory)
    (h : (group_for u c) ≠ []) : c ∈ cats_of u := by
  obtain ⟨p, hp⟩ := List.exists_mem_of_ne_nil _ h
  rw [group_for, List.mem_filter] at hp
  rw [cats_of, mem_dedup_first]
  have : p.2.category = c := by simpa using hp.2
  rw [← this]
  exact List.mem_map_of_mem _ hp.1

/-- Helper: uncons_cat decomposed. -/
theorem uncons_cat_iff (c : MemoryCategory) (m : MemoryEntry) :
    uncons_cat c m = true ↔ (m.consolidated = false ∧ m.category = c) := by
  simp [uncons_cat, Bool.not_eq_true']

/-- Helper: a consolidated entry never satisfies uncons_cat. -/
theorem uncons_cat_of_cons (c : MemoryCategory) (m : MemoryEntry)
    (h : m.consolidated = true) : uncons_cat c m = false := by
  simp [uncons_cat, h]

/-- Helper: counts only drop along componentwise flag_rel. -/
theorem countP_le_of_forall2 (pc : MemoryEntry → Bool)
    (hpc : ∀ a b, flag_rel a b → pc b = true → pc a = true) :
    ∀ {A B : List MemoryEntry}, List.Forall₂ flag_rel A B →
      B.countP pc ≤ A.countP pc
  | _, _, List.Forall₂.nil => le_refl 0
  | _, _, List.Forall₂.cons h1 t1 => by
      rename_i a b A2 B2
      rw [List.countP_cons, List.countP_cons]
      have hrec := countP_le_of_forall2 pc hpc t1
      by_cases hb : pc b = true
      · rw [if_pos hb, if_pos (hpc a b h1 hb)]
        omega
      · rw [if_neg hb]
        by_cases hA : pc a = true
        · rw [if_pos hA]; omega
        · rw [if_neg hA]; omega

/-- Helper: a count of a predicate that vanishes on consolidated entries
only drops along an ExtOk step. -/
theorem extok_countP_le (pc : MemoryEntry → Bool)
    (hvan : ∀ m, m.consolidated = true → pc m = false)
    {A B : List MemoryEntry} (h : ExtOk A B) :
    B.countP pc ≤ A.countP pc := by
  obtain ⟨B1, B2, rfl, hf, hb2⟩ := h
  rw [List.countP_append]
  have h2 : B2.countP pc = 0 := by
    rw [List.countP_eq_zero]
    intro b hb
    simp [hvan b (hb2 b hb)]
  have h1 : B1.countP pc ≤ A.countP pc := by
    refine countP_le_of_forall2 pc ?_ hf
    intro a b hr hpb
    rcases hr with rfl | rfl
    · exact hpb
    · have : pc (set_consolidated a) = false := hvan _ rfl
      rw [this] at hpb
      cases hpb
  omega

end MemorySystem

namespace MemorySystem

/-- Helper: every normally-completing run of the entangled operations
only flags existing working-set members and appends already-consolidated
entries (the add case assumes the added entry itself is consolidated, as
is the case for every add issued from within consolidation). -/
theorem ms_run_extok : ∀ f : Nat,
    (∀ now s e s1, e.consolidated = true →
      ms_run f (MSCall.add now s e) = (s1, true) → ExtOk s.memories s1.memories) ∧
    (∀ now s s1,
      ms_run f (MSCall.check now s) = (s1, true) → ExtOk s.memories s1.memories) ∧
    (∀ now s s1,
      ms_run f (MSCall.consol now s) = (s1, true) → ExtOk s.memories s1.memories) ∧
    (∀ now u cats s s1,
      ms_run f (MSCall.loop now u cats s) = (s1, true) → ExtOk s.memories s1.memories)
  | 0 => by
      refine ⟨?_, ?_, ?_, ?_⟩
      · intro now s e s1 _ h
        exact absurd (congrArg Prod.snd h) (by simp [ms_run])
      · intro now s s1 h
        exact absurd (congrArg Prod.snd h) (by simp [ms_run])
      · intro now s s1 h
        exact absurd (congrArg Prod.snd h) (by simp [ms_run])
      · intro now u cats s s1 h
        exact absurd (congrArg Prod.snd h) (by simp [ms_run])
  | f + 1 => by
      obtain ⟨iha, ihk, ihc, ihl⟩ := ms_run_extok f
      refine ⟨?_, ?_, ?_, ?_⟩
      · intro now s e s1 he h
        simp only [ms_run] at h
        by_cases hth : s.settings.importance_threshold ≤ e.importance
        · rw [if_pos hth] at h
          exact extok_trans (extok_append_cons s.memories e he) (ihk now _ s1 h)
        · rw [if_neg hth] at h
          cases h
          exact extok_refl _
      · intro now s s1 h
        simp only [ms_run] at h
        by_cases hdue : s.settings.consolidation_interval_hours < now - s.last_consolidation
        · rw [if_pos hdue] at h
          exact ihc now s s1 h
        · rw [if_neg hdue] at h
          cases h
          exact extok_refl _
      · intro now s s1 h
        simp only [ms_run] at h
        by_cases hsm : (unconsolidated_of s.memories).length < 2
        · rw [if_pos hsm] at h
          cases h
          exact extok_refl _
        · rw [if_neg hsm] at h
          cases hl : ms_run f (MSCall.loop now (unconsolidated_of s.memories)
              (cats_of (unconsolidated_of s.memories)) s) with
          | mk t b =>
              rw [hl] at h
              cases b
              · exact absurd (congrArg Prod.snd h) (by simp)
              · cases h
                exact ihl now _ _ s t hl
      · intro now u cats s s1 h
        cases cats with
        | nil =>
            simp only [ms_run] at h
            cases h
            exact extok_refl _
        | cons c rest =>
            simp only [ms_run] at h
            by_cases hsm : (group_for u c).length < 2
            · rw [if_pos hsm] at h
              exact ihl now u rest s s1 h
            · rw [if_neg hsm] at h
              cases ha : ms_run f
                  (MSCall.add now s (mk_consolidated_entry now c (group_for u c))) with
              | mk t b =>
                  rw [ha] at h
                  cases b
                  · exact absurd (congrArg Prod.snd h) (by simp)
                  · have h1 : ExtOk s.memories t.memories := iha now s _ t rfl ha
                    have h2 : ExtOk t.memories
                        (flag_all t.memories ((group_for u c).map (fun p => p.1))) :=
                      extok_flag_all _ _
                    have h3 := ihl now u rest _ s1 h
                    exact extok_trans (extok_trans h1 h2) h3

/-- Helper: after a normally-completing pass of the per-category loop,
every member of a processed group of size at least two carries the
consolidated flag. -/
theorem ms_run_flags : ∀ f : Nat, ∀ (now : Int) (u : List (Nat × MemoryEntry))
    (cats : List MemoryCategory) (s s1 : MemorySystem),
    ms_run f (MSCall.loop now u cats s) = (s1, true) →
    ∀ c ∈ cats, 2 ≤ (group_for u c).length →
    ∀ p ∈ group_for u c, p.1 < s.memories.length →
    ∃ m, s1.memories[p.1]? = some m ∧ m.consolidated = true
  | 0 => by
      intro now u cats s s1 h
      exact absurd (congrArg Prod.snd h) (by simp [ms_run])
  | f + 1 => by
      intro now u cats s s1 h
      cases cats with
      | nil =>
          intro c hc
          exact absurd hc (by simp)
      | cons c0 rest =>
          simp only [ms_run] at h
          by_cases hsm : (group_for u c0).length < 2
          · rw [if_pos hsm] at h
            intro c hc hbig p hp hlt
            rcases List.mem_cons.mp hc with rfl | hc2
            · omega
            · exact ms_run_flags f now u rest s s1 h c hc2 hbig p hp hlt
          · rw [if_neg hsm] at h
            cases ha : ms_run f
                (MSCall.add now s (mk_consolidated_entry now c0 (group_for u c0))) with
            | mk t b =>
                rw [ha] at h
                cases b
                · exact absurd (congrArg Prod.snd h) (by simp)
                · intro c hc hbig p hp hlt
                  have hextadd : ExtOk s.memories t.memories :=
                    (ms_run_extok f).1 now s _ t rfl ha
                  have hlen_t : s.memories.length ≤ t.memories.length :=
                    extok_length_le hextadd
                  rcases List.mem_cons.mp hc with rfl | hc2
                  · have hidx : p.1 ∈ (group_for u c).map (fun q => q.1) :=
                      List.mem_map_of_mem _ hp
                    have hlt_t : p.1 < t.memories.length := lt_of_lt_of_le hlt hlen_t
                    obtain ⟨m, hm, hmc⟩ := flag_all_flags t.memories _ p.1 hidx hlt_t
                    have hextrest : ExtOk (flag_all t.memories
                        ((group_for u c).map (fun q => q.1))) s1.memories :=
                      (ms_run_extok f).2.2.2 now u rest _ s1 h
                    exact extok_persist hextrest p.1 m hm hmc
                  · have hlt2 : p.1 < (flag_all t.memories
                        ((group_for u c0).map (fun q => q.1))).length := by
                      rw [flag_all_length]
                      omega
                    have := ms_run_flags f now u rest _ s1 h c hc2 hbig p hp
                    exact this hlt2

/-- Helper: after a normally-completing consolidation run, every member
of a category group of size at least two is flagged consolidated. -/
theorem consol_flags (f : Nat) (now : Int) (s s1 : MemorySystem)
    (h : ms_run f (MSCall.consol now s) = (s1, true)) :
    ∀ c ∈ cats_of (unconsolidated_of s.memories),
      2 ≤ (group_for (unconsolidated_of s.memories) c).length →
      ∀ p ∈ group_for (unconsolidated_of s.memories) c, p.1 < s.memories.length →
      ∃ m, s1.memories[p.1]? = some m ∧ m.consolidated = true := by
  cases f with
  | zero => exact absurd (congrArg Prod.snd h) (by simp [ms_run])
  | succ f =>
      simp only [ms_run] at h
      by_cases hsm : (unconsolidated_of s.memories).length < 2
      · rw [if_pos hsm] at h
        intro c _ hbig
        have := group_length_le (unconsolidated_of s.memories) c
        omega
      · rw [if_neg hsm] at h
        cases hl : ms_run f (MSCall.loop now (unconsolidated_of s.memories)
            (cats_of (unconsolidated_of s.memories)) s) with
        | mk t b =>
            rw [hl] at h
            cases b
            · exact absurd (congrArg Prod.snd h) (by simp)
            · cases h
              exact ms_run_flags f now _ _ s t hl

/-- Helper: the consolidation invariant.  After any normally-completing
consolidation run, every category holds at most one unconsolidated
working-set entry: every group of size at least two was flagged, every
synthesized entry was created consolidated, and singleton groups stay
singletons. -/
theorem consol_inv (f : Nat) (now : Int) (s s1 : MemorySystem)
    (h : ms_run f (MSCall.consol now s) = (s1, true)) (c : MemoryCategory) :
    s1.memories.countP (uncons_cat c) ≤ 1 := by
  have hext : ExtOk s.memories s1.memories := (ms_run_extok f).2.2.1 now s s1 h
  by_cases hn0 : s.memories.countP (uncons_cat c) ≤ 1
  · have := extok_countP_le (uncons_cat c) (uncons_cat_of_cons c) hext
    omega
  · push_neg at hn0
    have hbig : 2 ≤ (group_for (unconsolidated_of s.memories) c).length := by
      rw [group_length_eq]
      omega
    have hzero : s1.memories.countP (uncons_cat c) = 0 := by
      rw [List.countP_eq_zero]
      intro m2 hm2
      intro hpc
      obtain ⟨i, hi⟩ := List.mem_iff_getElem?.mp hm2
      have hiB : i < s1.memories.length := (List.getElem?_eq_some.mp hi).1
      obtain ⟨hm2cons, hm2cat⟩ := (uncons_cat_iff c m2).mp hpc
      by_cases hilt : i < s.memories.length
      · obtain ⟨a, ha, hrel⟩ := extok_prefix_getElem? hext i m2 hilt hi
        have haeq : m2 = a := flag_rel_uncons hrel hm2cons
        subst haeq
        have hgrp : (i, m2) ∈ group_for (unconsolidated_of s.memories) c :=
          (group_mem s.memories c i m2).mpr ⟨ha, hm2cons, hm2cat⟩
        have hcats : c ∈ cats_of (unconsolidated_of s.memories) := by
          apply mem_cats_of_of_group
          intro hempty
          rw [hempty] at hgrp
          exact absurd hgrp (by simp)
        obtain ⟨m3, hm3, hm3c⟩ :=
          consol_flags f now s s1 h c hcats hbig (i, m2) hgrp hilt
        rw [hi] at hm3
        cases hm3
        rw [hm3c] at hm2cons
        cases hm2cons
      · push_neg at hilt
        have := extok_suffix_cons hext i hiB hilt
        have hget : s1.memories.get ⟨i, hiB⟩ = m2 := by
          have := (List.getElem?_eq_some.mp hi).2
          simpa [List.get_eq_getElem] using this
        rw [hget] at this
        rw [this] at hm2cons
        cases hm2cons
    omega

/-- Helper: a loop pass over categories whose groups all have fewer than
two members changes nothing. -/
theorem loop_all_small : ∀ (f : Nat) (now : Int) (u : List (Nat × MemoryEntry))
    (cats : List MemoryCategory) (s s1 : MemorySystem),
    (∀ c ∈ cats, (group_for u c).length < 2) →
    ms_run f (MSCall.loop now u cats s) = (s1, true) → s1 = s
  | 0, now, u, cats, s, s1, _, h =>
      absurd (congrArg Prod.snd h) (by simp [ms_run])
  | f + 1, now, u, cats, s, s1, hsmall, h => by
      cases cats with
      | nil =>
          simp only [ms_run] at h
          cases h
          rfl
      | cons c rest =>
          simp only [ms_run] at h
          rw [if_pos (hsmall c (List.mem_cons_self _ _))] at h
          exact loop_all_small f now u rest s s1
            (fun c2 hc2 => hsmall c2 (List.mem_cons_of_mem _ hc2)) h

/-- C8: consolidation is idempotent.  If a consolidation run completes
normally and a second run follows with no intervening add, the second
run appends no entry to the durable log, adds no entry to the working
set, changes no flag, and leaves the vector index untouched: after the
first run every previously-unconsolidated source is flagged (or was a
category singleton, which is skipped again), and every synthesized entry
was created consolidated. -/
theorem consolidation_idempotent (f1 f2 : Nat) (n1 n2 : Int) (s s1 s2 : MemorySystem)
    (h1 : consolidate_memories f1 n1 s = (s1, true))
    (h2 : consolidate_memories f2 n2 s1 = (s2, true)) :
    s2.memory_log = s1.memory_log ∧ s2.memories = s1.memories ∧
    s2.vector_store = s1.vector_store := by
  have hinv : ∀ c, s1.memories.countP (uncons_cat c) ≤ 1 :=
    consol_inv f1 n1 s s1 h1
  cases f2 with
  | zero => exact absurd (congrArg Prod.snd h2) (by simp [consolidate_memories, ms_run])
  | succ g =>
      rw [consolidate_memories] at h2
      simp only [ms_run] at h2
      by_cases hsm : (unconsolidated_of s1.memories).length < 2
      · rw [if_pos hsm] at h2
        cases h2
        exact ⟨rfl, rfl, rfl⟩
      · rw [if_neg hsm] at h2
        cases hl : ms_run g (MSCall.loop n2 (unconsolidated_of s1.memories)
            (cats_of (unconsolidated_of s1.memories)) s1) with
        | mk t b =>
            rw [hl] at h2
            cases b
            · exact absurd (congrArg Prod.snd h2) (by simp)
            · have hsmallgroups : ∀ c ∈ cats_of (unconsolidated_of s1.memories),
                  (group_for (unconsolidated_of s1.memories) c).length < 2 := by
                intro c _
                rw [group_length_eq]
                have := hinv c
                omega
              have ht : t = s1 := loop_all_small g n2 _ _ s1 t hsmallgroups hl
              cases h2
              subst ht
              exact ⟨rfl, rfl, rfl⟩

/-- Witness for consolidation idempotence: the Scenario A fixture run
twice; the second run changes neither the log nor the working set. -/
theorem consolidation_idempotent_witness :
    ((consolidate_memories 9 10 exMS).2 = true) ∧
    ((consolidate_memories 9 20 (consolidate_memories 9 10 exMS).1).2 = true) ∧
    (consolidate_memories 9 20 (consolidate_memories 9 10 exMS).1).1.memory_log =
      (consolidate_memories 9 10 exMS).1.memory_log ∧
    (consolidate_memories 9 20 (consolidate_memories 9 10 exMS).1).1.memories =
      (consolidate_memories 9 10 exMS).1.memories := by
  have hb1 : (consolidate_memories 9 10 exMS).2 = true := by decide
  have hb2 : (consolidate_memories 9 20 (consolidate_memories 9 10 exMS).1).2 = true := by
    decide
  have e1 : consolidate_memories 9 10 exMS = ((consolidate_memories 9 10 exMS).1, true) := by
    rw [← hb1]
  have e2 : consolidate_memories 9 20 (consolidate_memories 9 10 exMS).1 =
      ((consolidate_memories 9 20 (consolidate_memories 9 10 exMS).1).1, true) := by
    rw [← hb2]
  have h := consolidation_idempotent 9 9 10 20 exMS _ _ e1 e2
  exact ⟨hb1, hb2, h.1, h.2.1⟩

/-- Helper: with one unit of fuel a gate-passing add aborts (it still has
to run the consolidation check). -/
theorem add_fuel_one_aborts (now : Int) (s : MemorySystem) (e : MemoryEntry)
    (hth : s.settings.importance_threshold ≤ e.importance) :
    (ms_run 1 (MSCall.add now s e)).2 = false := by
  simp only [ms_run]
  rw [if_pos hth]

/-- Helper: exact log characterization of a completing per-category loop
pass when the nested consolidation check is not due and every synthesized
entry passes the importance gate: the log gains exactly one synthesized
entry per category group of size at least two, in pass order; settings
and the consolidation clock are unchanged. -/
theorem loop_log_char : ∀ (f : Nat) (now : Int) (u : List (Nat × MemoryEntry))
    (cats : List MemoryCategory) (s s1 : MemorySystem),
    now - s.last_consolidation ≤ s.settings.consolidation_interval_hours →
    (∀ c ∈ cats, 2 ≤ (group_for u c).length →
      s.settings.importance_threshold ≤ max_importance (group_for u c)) →
    ms_run f (MSCall.loop now u cats s) = (s1, true) →
    s1.memory_log = s.memory_log ++ loop_new_entries now u cats ∧
    s1.settings = s.settings ∧ s1.last_consolidation = s.last_consolidation
  | 0, now, u, cats, s, s1, _, _, h =>
      absurd (congrArg Prod.snd h) (by simp [ms_run])
  | f + 1, now, u, cats, s, s1, hnotdue, hgate, h => by
      cases cats with
      | nil =>
          simp only [ms_run] at h
          cases h
          exact ⟨by simp [loop_new_entries], rfl, rfl⟩
      | cons c rest =>
          simp only [ms_run] at h
          by_cases hsm : (group_for u c).length < 2
          · rw [if_pos hsm] at h
            obtain ⟨hlog, hset, hlast⟩ := loop_log_char f now u rest s s1 hnotdue
              (fun c2 hc2 hb => hgate c2 (List.mem_cons_of_mem _ hc2) hb) h
            refine ⟨?_, hset, hlast⟩
            rw [hlog]
            congr 1
            rw [loop_new_entries, loop_new_entries,
              List.filter_cons_of_neg (by simp only [decide_eq_true_eq]; omega)]
          · rw [if_neg hsm] at h
            have hgatec : s.settings.importance_threshold ≤
                (mk_consolidated_entry now c (group_for u c)).importance :=
              hgate c (List.mem_cons_self _ _) (by omega)
            cases f with
            | zero =>
                cases ha : ms_run 0
                    (MSCall.add now s (mk_consolidated_entry now c (group_for u c))) with
                | mk x bb =>
                    have : bb = false := by
                      have : (ms_run 0 (MSCall.add now s
                        (mk_consolidated_entry now c (group_for u c)))).2 = false := rfl
                      rw [ha] at this
                      exact this
                    subst this
                    rw [ha] at h
                    exact absurd (congrArg Prod.snd h) (by simp)
            | succ f2 =>
                cases f2 with
                | zero =>
                    cases ha : ms_run 1
                        (MSCall.add now s (mk_consolidated_entry now c (group_for u c))) with
                    | mk x bb =>
                        have : bb = false := by
                          have := add_fuel_one_aborts now s
                            (mk_consolidated_entry now c (group_for u c)) hgatec
                          rw [ha] at this
                          exact this
                        subst this
                        rw [ha] at h
                        exact absurd (congrArg Prod.snd h) (by simp)
                | succ g =>
                    have hadd := add_memory_gate_pass g now s
                      (mk_consolidated_entry now c (group_for u c)) hgatec hnotdue
                    rw [add_memory] at hadd
                    rw [hadd] at h
                    dsimp only at h
                    obtain ⟨hlog, hset, hlast⟩ := loop_log_char (g + 2) now u rest _ s1
                      (by exact hnotdue)
                      (by
                        intro c2 hc2 hb
                        exact hgate c2 (List.mem_cons_of_mem _ hc2) hb) h
                    refine ⟨?_, hset, hlast⟩
                    rw [hlog]
                    have hpos : decide (2 ≤ (group_for u c).length) = true := by
                      simp only [decide_eq_true_eq]
                      omega
                    simp only [loop_new_entries, List.filter_cons, hpos, eq_self_iff_true,
                      if_true, List.map_cons]
                    rw [List.append_assoc, List.singleton_append]

/-- Helper: membership in big_cats is having at least two unconsolidated
entries of that category. -/
theorem mem_big_cats (l : List MemoryEntry) (c : MemoryCategory) :
    c ∈ big_cats (unconsolidated_of l) ↔ 2 ≤ l.countP (uncons_cat c) := by
  rw [big_cats, List.mem_filter, decide_eq_true_eq, group_length_eq]
  constructor
  · rintro ⟨_, h⟩
    exact h
  · intro h
    refine ⟨?_, h⟩
    apply mem_cats_of_of_group
    intro hnil
    rw [← group_length_eq, hnil] at h
    simp at h

/-- C3 (amended): when a consolidation run completes (the nested check
not being due), then for each category with at least two unconsolidated
working-set entries WHOSE MAXIMUM IMPORTANCE MEETS THE IMPORTANCE
THRESHOLD, exactly one new entry is appended to the durable log, with
memory_type semantic, importance the maximum of the source importances,
references the list of source timestamps, and consolidated = true at
creation; afterwards every source entry of every such category carries
consolidated = true.  (Without the gate proviso the synthesized entry is
silently dropped by add_memory while the sources are still flagged; see
the counterexample.) -/
theorem consolidation_per_category (f : Nat) (now : Int) (s s1 : MemorySystem)
    (hnotdue : now - s.last_consolidation ≤ s.settings.consolidation_interval_hours)
    (hgate : ∀ c ∈ cats_of (unconsolidated_of s.memories),
      2 ≤ (group_for (unconsolidated_of s.memories) c).length →
      s.settings.importance_threshold ≤
        max_importance (group_for (unconsolidated_of s.memories) c))
    (hrun : consolidate_memories f now s = (s1, true)) :
    s1.memory_log = s.memory_log ++
      (big_cats (unconsolidated_of s.memories)).map
        (fun c => mk_consolidated_entry now c (group_for (unconsolidated_of s.memories) c)) ∧
    (big_cats (unconsolidated_of s.memories)).Nodup ∧
    (∀ c, 2 ≤ s.memories.countP (uncons_cat c) ↔
      c ∈ big_cats (unconsolidated_of s.memories)) ∧
    (∀ c ∈ big_cats (unconsolidated_of s.memories),
      (mk_consolidated_entry now c (group_for (unconsolidated_of s.memories) c)).memory_type =
        MemoryType.semantic ∧
      (mk_consolidated_entry now c (group_for (unconsolidated_of s.memories) c)).importance =
        max_importance (group_for (unconsolidated_of s.memories) c) ∧
      (mk_consolidated_entry now c (group_for (unconsolidated_of s.memories) c)).references =
        (group_for (unconsolidated_of s.memories) c).map (fun p => p.2.timestamp) ∧
      (mk_consolidated_entry now c (group_for (unconsolidated_of s.memories) c)).consolidated =
        true) ∧
    (∀ c ∈ big_cats (unconsolidated_of s.memories),
      ∀ p ∈ group_for (unconsolidated_of s.memories) c,
        ∃ m, s1.memories[p.1]? = some m ∧ m.consolidated = true) := by
  rw [consolidate_memories] at hrun
  have hflagsrun := consol_flags f now s s1 hrun
  have hflags : ∀ c ∈ big_cats (unconsolidated_of s.memories),
      ∀ p ∈ group_for (unconsolidated_of s.memories) c,
        ∃ m, s1.memories[p.1]? = some m ∧ m.consolidated = true := by
    intro c hcbig p hp
    obtain ⟨hcats, hbigd⟩ := List.mem_filter.mp hcbig
    have hbig : 2 ≤ (group_for (unconsolidated_of s.memories) c).length := by
      simpa using hbigd
    have hp2 : (p.1, p.2) ∈ group_for (unconsolidated_of s.memories) c := by
      simpa using hp
    have hget := ((group_mem s.memories c p.1 p.2).mp hp2).1
    have hlt : p.1 < s.memories.length := (List.getElem?_eq_some.mp hget).1
    exact hflagsrun c hcats hbig p hp hlt
  refine ⟨?_, List.Nodup.filter _ (dedup_first_nodup _),
    fun c => (mem_big_cats s.memories c).symm, fun c _ => ⟨rfl, rfl, rfl, rfl⟩, hflags⟩
  cases f with
  | zero => exact absurd (congrArg Prod.snd hrun) (by simp [ms_run])
  | succ g =>
      simp only [ms_run] at hrun
      by_cases hsm : (unconsolidated_of s.memories).length < 2
      · rw [if_pos hsm] at hrun
        cases hrun
        have hempty : big_cats (unconsolidated_of s.memories) = [] := by
          rw [big_cats, List.filter_eq_nil_iff]
          intro c _
          simp only [decide_eq_true_eq]
          have := group_length_le (unconsolidated_of s.memories) c
          omega
        rw [hempty]
        simp
      · rw [if_neg hsm] at hrun
        cases hl : ms_run g (MSCall.loop now (unconsolidated_of s.memories)
            (cats_of (unconsolidated_of s.memories)) s) with
        | mk t b =>
            rw [hl] at hrun
            cases b
            · exact absurd (congrArg Prod.snd hrun) (by simp)
            · cases hrun
              obtain ⟨hlog, _, _⟩ := loop_log_char g now (unconsolidated_of s.memories)
                (cats_of (unconsolidated_of s.memories)) s t hnotdue hgate hl
              exact hlog

/-- C3 counterexample: with importance threshold 9 the learning category
has two unconsolidated entries (importance 6 and 7), consolidation runs
and completes, but the synthesized entry (importance 7) is silently
dropped by the importance gate: no new entry reaches the log or the
working set, while the two sources are still flagged consolidated. -/
theorem consolidation_gate_cex :
    2 ≤ (group_for (unconsolidated_of cexMS.memories) MemoryCategory.learning).length ∧
    consolidate_memories 9 10 cexMS =
      ({ cexMS with
          memories := [set_consolidated entryA, set_consolidated entryB]
          last_consolidation := 10 }, true) ∧
    max_importance (group_for (unconsolidated_of cexMS.memories) MemoryCategory.learning) <
      cexMS.settings.importance_threshold := by
  refine ⟨by decide, by decide, by decide⟩

/-- Witness for the per-category consolidation characterization at the
Scenario A fixture: three unconsolidated learning entries of importance
6, 7, 8 yield exactly one appended semantic entry of importance 8
referencing the three source timestamps. -/
theorem consolidation_per_category_witness :
    ((10 : Int) - exMS.last_consolidation ≤ exMS.settings.consolidation_interval_hours) ∧
    (∀ c ∈ cats_of (unconsolidated_of exMS.memories),
      2 ≤ (group_for (unconsolidated_of exMS.memories) c).length →
      exMS.settings.importance_threshold ≤
        max_importance (group_for (unconsolidated_of exMS.memories) c)) ∧
    (consolidate_memories 9 10 exMS).1.memory_log =
      exMS.memory_log ++ (big_cats (unconsolidated_of exMS.memories)).map
        (fun c => mk_consolidated_entry 10 c (group_for (unconsolidated_of exMS.memories) c)) ∧
    big_cats (unconsolidated_of exMS.memories) = [MemoryCategory.learning] ∧
    (mk_consolidated_entry 10 MemoryCategory.learning
      (group_for (unconsolidated_of exMS.memories) MemoryCategory.learning)).importance = 8 ∧
    (mk_consolidated_entry 10 MemoryCategory.learning
      (group_for (unconsolidated_of exMS.memories) MemoryCategory.learning)).references =
      [1, 2, 3] := by
  have hb : (consolidate_memories 9 10 exMS).2 = true := by decide
  have e1 : consolidate_memories 9 10 exMS = ((consolidate_memories 9 10 exMS).1, true) := by
    rw [← hb]
  have h := consolidation_per_category 9 10 exMS _ (by decide) (by decide) e1
  exact ⟨by decide, by decide, h.1, by decide, by decide, by decide⟩

end MemorySystem

/-- Witness for the pruning specification at the boundary fixture. -/
theorem prune_memories_spec_witness :
    (MemorySystem.prune_memories 30 pruneCexMS).memory_log = pruneCexMS.memory_log ∧
    (pruneCexEntry ∈ (MemorySystem.prune_memories 30 pruneCexMS).memories ↔
      (pruneCexEntry ∈ pruneCexMS.memories ∧
        ((30 : Int) - pruneCexEntry.timestamp < pruneCexMS.settings.memory_retention_days ∨
         pruneCexMS.settings.pruning_importance_threshold ≤ pruneCexEntry.importance ∨
         pruneCexMS.settings.min_access_keep ≤ pruneCexEntry.access_count ∨
         pruneCexEntry.consolidated = true))) := by
  have h := MemorySystem.prune_memories_spec 30 pruneCexMS
  exact ⟨h.1, h.2.2.2.2 pruneCexEntry⟩

/-- Witness for the state ledger at concrete states. -/
theorem state_ledger_spec_witness :
    (save_state [stInit] stNext).1 = [stInit, stNext] ∧
    load_or_init_state (save_state [stInit] stNext).1 stInit = stNext ∧
    load_or_init_state [] stInit = stInit := by
  have h := state_ledger_spec [stInit] stNext stInit
  exact ⟨h.1.trans (by decide), h.2.2.1, h.2.2.2⟩

/-- Witness for the retrieval frame property at the fixture. -/
theorem retrieval_frame_witness :
    (apply_retrievals 50 exMS [([docA, docA2, docB], 2)]).memory_log = exMS.memory_log ∧
    restart_working_set (apply_retrievals 50 exMS [([docA, docA2, docB], 2)]) =
      [entryA, entryB, entryC] := by
  have h := retrieval_touches_working_set_only 50 exMS [([docA, docA2, docB], 2)]
  exact ⟨h.1, h.2.2.2.2.trans (by decide)⟩
